import Mathlib

/-!
# `lperformance.c`: the clock and sleep module of the Lua runtime

A shallow embedding of `src/lua/lperformance.c` and the properties of its four
exported operations `counter`, `frequency`, `now` and `sleep`.

* C `double` / `lua_Number` values are modelled by `Double`: NaN, the two
  infinities, or a finite rational.  Every arithmetic result is rounded to the
  IEEE-754 binary64 grid (53-bit significand, round to nearest, ties to even,
  subnormals below `2^-1022`, overflow to infinity from `2^1024`).  The sign of
  zero is not tracked.
* `uint64_t` values are naturals reduced modulo `2^64`, `unsigned int` values
  are reduced modulo `2^32`.
* A conversion from `double` to an integer type whose truncated value does not
  fit is undefined behaviour in C and is modelled by `none`.
* The operating system is an explicit input: the values it stores during
  `_InitTime`, one `Reading` per `_GetTimeValue` call, and a script of replies
  for the `nanosleep` calls.
-/

/-- A C `double` (binary64) value. -/
inductive Double where
  | nan : Double
  | inf (neg : Bool) : Double
  | fin (q : ℚ) : Double
deriving DecidableEq

namespace Double

/-- Nearest integer to a rational, a tie going to the even neighbour. -/
def rnInt (x : ℚ) : ℤ :=
  let f := ⌊x⌋
  let r := x - f
  if r < 1 / 2 then f
  else if 1 / 2 < r then f + 1
  else if f % 2 = 0 then f else f + 1

/-- Exponent of the binade that holds `x`, never below the subnormal range. -/
def expo (x : ℚ) : ℤ := max (Int.log 2 |x|) (-1022)

/-- Unit in the last place of the binary64 grid around `x`. -/
def ulp (x : ℚ) : ℚ := (2 : ℚ) ^ (expo x - 52)

/-- Round to nearest, ties to even, on the binary64 grid (exponent unbounded above). -/
def roundQ (x : ℚ) : ℚ := (rnInt (x / ulp x) : ℚ) * ulp x

/-- A rational that is a finite binary64 value. -/
def Representable (x : ℚ) : Prop := roundQ x = x ∧ |x| < 2 ^ 1024

instance (x : ℚ) : Decidable (Representable x) :=
  inferInstanceAs (Decidable (roundQ x = x ∧ |x| < 2 ^ 1024))

/-- The binary64 result of an exact real result `x`: rounded, infinite on overflow. -/
def ofRat (x : ℚ) : Double :=
  if (2 : ℚ) ^ 1024 ≤ |roundQ x| then inf (decide (x < 0)) else fin (roundQ x)

/-- Conversion of an unsigned integer value to `double`. -/
def ofNat (n : ℕ) : Double := ofRat n

/-- IEEE multiplication. -/
def mul : Double → Double → Double
  | nan, _ => nan
  | _, nan => nan
  | inf s, inf t => inf (xor s t)
  | inf s, fin b => if b = 0 then nan else inf (xor s (decide (b < 0)))
  | fin a, inf t => if a = 0 then nan else inf (xor (decide (a < 0)) t)
  | fin a, fin b => ofRat (a * b)

/-- IEEE division (a zero divisor counts as `+0`). -/
def div : Double → Double → Double
  | nan, _ => nan
  | _, nan => nan
  | inf _, inf _ => nan
  | inf s, fin b => inf (xor s (decide (b < 0)))
  | fin _, inf _ => fin 0
  | fin a, fin b =>
    if b = 0 then (if a = 0 then nan else inf (decide (a < 0))) else ofRat (a / b)

/-- C comparison `a <= b`: false as soon as one side is NaN. -/
def le : Double → Double → Bool
  | nan, _ => false
  | _, nan => false
  | inf s, inf t => s || !t
  | inf s, fin _ => s
  | fin _, inf t => !t
  | fin a, fin b => decide (a ≤ b)

/-- C comparison `a > b`: false as soon as one side is NaN. -/
def gt : Double → Double → Bool
  | nan, _ => false
  | _, nan => false
  | inf s, inf t => !s && t
  | inf s, fin _ => !s
  | fin _, inf t => t
  | fin a, fin b => decide (b < a)

/-- Truncation toward zero. -/
def truncQ (x : ℚ) : ℤ := if 0 ≤ x then ⌊x⌋ else ⌈x⌉

/-- C `floor`. -/
def floor : Double → Double
  | fin a => fin (⌊a⌋ : ℤ)
  | x => x

/-- C `modf`: the fractional part (returned) and the integral part (stored). -/
def modf : Double → Double × Double
  | nan => (nan, nan)
  | inf s => (fin 0, inf s)
  | fin a => (fin (a - truncQ a), fin (truncQ a))

/-- Cast to `uint64_t`; `none` where C leaves the conversion undefined. -/
def toUInt64 : Double → Option ℕ
  | fin a => if 0 ≤ truncQ a ∧ truncQ a < 2 ^ 64 then some (truncQ a).toNat else none
  | _ => none

/-- Cast to a signed 64-bit integer (`time_t`, `long`); `none` where C leaves it undefined. -/
def toInt64 : Double → Option ℤ
  | fin a => if -(2 ^ 63) ≤ truncQ a ∧ truncQ a < 2 ^ 63 then some (truncQ a) else none
  | _ => none

end Double

namespace LPerformance

/-- The three conditional-compilation branches of the file. -/
inductive Platform where
  | win32
  | apple
  | posix
deriving DecidableEq

/-- C `struct timespec`. -/
structure Timespec where
  tv_sec : ℤ
  tv_nsec : ℤ
deriving DecidableEq

/-- The static `_timeOffset`; the `clock` member exists on the POSIX branch only. -/
structure TimeOffset where
  frequency : ℕ
  clock : ℕ
  offset : ℕ
deriving DecidableEq

/-- Clock identifiers of `<time.h>`. -/
structure ClockIds where
  CLOCK_REALTIME : ℕ
  CLOCK_MONOTONIC : ℕ

/-- What the platform answers while `_InitTime` runs. -/
structure InitEnv where
  /-- value stored by `QueryPerformanceFrequency` -/
  qpf : ℕ
  /-- numerator stored by `mach_timebase_info` -/
  numer : ℕ
  /-- denominator stored by `mach_timebase_info` -/
  denom : ℕ
  /-- whether `_POSIX_MONOTONIC_CLOCK` is defined -/
  hasMonotonic : Bool
  /-- return value of `clock_gettime(CLOCK_MONOTONIC, &ts)` -/
  probe : ℤ

/-- What the platform answers to one `_GetTimeValue` call. -/
structure Reading where
  /-- value of `QueryPerformanceCounter` / `mach_absolute_time` -/
  ticks : ℕ
  /-- the `timespec` filled in by `clock_gettime` -/
  ts : Timespec

/-- Conversion of a signed integer to `uint64_t`. -/
def toU64 (i : ℤ) : ℕ := (i % 2 ^ 64).toNat

/-- Subtraction of `uint64_t` values. -/
def subU64 (a b : ℕ) : ℕ := (((a : ℤ) - (b : ℤ)) % 2 ^ 64).toNat

/-- The C function `_InitTime`, one branch per platform. -/
def _InitTime (p : Platform) (ids : ClockIds) (env : InitEnv) (st : TimeOffset) :
    Option TimeOffset :=
  match p with
  | .win32 => some { st with frequency := env.qpf % 2 ^ 64 }
  | .apple =>
    match (Double.div (Double.mul (Double.ofNat (env.denom % 2 ^ 32)) (Double.fin 1000000000))
        (Double.ofNat (env.numer % 2 ^ 32))).toUInt64 with
    | some f => some { st with frequency := f }
    | none => none
  | .posix =>
    let st1 := { st with clock := ids.CLOCK_REALTIME % 2 ^ 64, frequency := 1000000000 }
    if env.hasMonotonic && env.probe == 0 then
      some { st1 with clock := ids.CLOCK_MONOTONIC % 2 ^ 64 }
    else some st1

/-- The C function `_GetTimeValue`, one branch per platform. -/
def _GetTimeValue (p : Platform) (st : TimeOffset) (r : Reading) : ℕ :=
  match p with
  | .posix => (toU64 r.ts.tv_sec * st.frequency + toU64 r.ts.tv_nsec) % 2 ^ 64
  | _ => r.ticks % 2 ^ 64

/-- The C function `frequencyInitTimer`. -/
def frequencyInitTimer (p : Platform) (ids : ClockIds) (env : InitEnv) (r : Reading)
    (st : TimeOffset) : Option TimeOffset :=
  match _InitTime p ids env st with
  | some st1 => some { st1 with offset := _GetTimeValue p st1 r }
  | none => none

/-- The C function `performance_counter`: the values pushed, and the clock state after. -/
def performance_counter (p : Platform) (st : TimeOffset) (r : Reading) :
    List Double × TimeOffset :=
  let t := _GetTimeValue p st r
  ([Double.ofNat t], st)

/-- The C function `performance_frequency`. -/
def performance_frequency (st : TimeOffset) : List Double × TimeOffset :=
  let t := Double.ofNat st.frequency
  ([t], st)

/-- The C function `performance_now`. -/
def performance_now (p : Platform) (st : TimeOffset) (r : Reading) :
    List Double × TimeOffset :=
  let t := Double.div (Double.ofNat (subU64 (_GetTimeValue p st r) st.offset))
    (Double.ofNat st.frequency)
  ([t], st)

/-- A call of a blocking primitive of the operating system. -/
inductive OsCall where
  | Sleep (ms : ℕ) : OsCall
  | nanosleep (req : Timespec) : OsCall
deriving DecidableEq

/-- What one `nanosleep(&ts, &ts)` call does: its return value, the value it stores
in `errno` (if it stores one) and the remaining time it writes back (if it writes one). -/
structure NanosleepReply where
  res : ℤ
  errno : Option ℤ
  rem : Option Timespec

/-- How a `performance_sleep` call ends. -/
inductive SleepResult where
  /-- the function returned `nresults` values after making `calls` -/
  | returned (nresults : ℕ) (calls : List OsCall) : SleepResult
  /-- the scripted replies ran out while the retry loop was still going -/
  | blocked (calls : List OsCall) : SleepResult
  /-- a conversion to an integer type was out of range -/
  | undefined : SleepResult
deriving DecidableEq

/-- Modelled from the spec: `luaL_optnumber` of `lauxlib` is not part of the sources at
hand; the argument is an optional number and the default stands in when it is absent. -/
def luaL_optnumber (arg : Option Double) (d : Double) : Double :=
  match arg with
  | some x => x
  | none => d

/-- The value of `errno` after a call that was entered with `errno = 0`. -/
def errnoAfter (reply : NanosleepReply) : ℤ :=
  match reply.errno with
  | some e => e
  | none => 0

/-- The `do ... while (!stop)` loop of `performance_sleep`, against a script of replies.
`calls` collects the requests made so far. -/
def nanosleepLoop (EINTR : ℤ) : List NanosleepReply → Timespec → List OsCall → SleepResult
  | [], _, calls => .blocked calls
  | reply :: rest, ts, calls =>
    let errno : ℤ := errnoAfter reply
    let ts1 : Timespec := match reply.rem with
      | some t => t
      | none => ts
    let stop : Bool := reply.res == 0 || errno != EINTR
    if stop then .returned 0 (calls ++ [.nanosleep ts])
    else nanosleepLoop EINTR rest ts1 (calls ++ [.nanosleep ts])

/-- The reply of a `nanosleep` call cut short by a signal: the return value `x.1`,
`errno = EINTR`, and the remaining time `x.2` written back. -/
def interruptedReply (EINTR : ℤ) (x : ℤ × Timespec) : NanosleepReply :=
  { res := x.1, errno := some EINTR, rem := some x.2 }

/-- The millisecond count of the `_WIN32` branch, from the microsecond count. -/
def sleepMillis (us : ℕ) : ℕ := ((us + 999) % 2 ^ 64 / 1000) % 2 ^ 32

/-- The `timespec` initialiser of the POSIX branch. -/
def sleepTimespec (secs : Double) : Option Timespec :=
  let m := (Double.modf secs).1
  match (Double.floor secs).toInt64, (Double.mul m (Double.fin 1000000000)).toInt64 with
  | some s, some ns => some { tv_sec := s, tv_nsec := ns }
  | _, _ => none

/-- The C function `performance_sleep`. -/
def performance_sleep (p : Platform) (EINTR : ℤ) (arg : Option Double)
    (os : List NanosleepReply) : SleepResult :=
  let secs := luaL_optnumber arg (Double.fin 0)
  if Double.le secs (Double.fin 0) then .returned 0 []
  else
    match p with
    | .win32 =>
      match (Double.mul secs (Double.fin 1000000)).toUInt64 with
      | none => .undefined
      | some us =>
        let ms := sleepMillis us
        if ms > 0 then .returned 0 [.Sleep ms] else .returned 0 []
    | _ =>
      if Double.gt secs (Double.fin 0) then
        match sleepTimespec secs with
        | some ts => nanosleepLoop EINTR os ts []
        | none => .undefined
      else .returned 0 []

/-- One call of an exported operation, with what the platform answers during it. -/
inductive Call where
  | counter (r : Reading) : Call
  | frequency : Call
  | now (r : Reading) : Call
  | sleep (arg : Option Double) (os : List NanosleepReply) : Call

/-- What a call hands back to Lua. -/
inductive Output where
  | values (vs : List Double) : Output
  | slept (res : SleepResult) : Output

/-- Dispatch of one call through `performancelib`. -/
def call (p : Platform) (EINTR : ℤ) (st : TimeOffset) : Call → Output × TimeOffset
  | .counter r => ((performance_counter p st r).1 |> Output.values, (performance_counter p st r).2)
  | .frequency => ((performance_frequency st).1 |> Output.values, (performance_frequency st).2)
  | .now r => ((performance_now p st r).1 |> Output.values, (performance_now p st r).2)
  | .sleep arg os => (Output.slept (performance_sleep p EINTR arg os), st)

/-- A sequence of calls, threading the clock state. -/
def run (p : Platform) (EINTR : ℤ) : TimeOffset → List Call → List Output × TimeOffset
  | st, [] => ([], st)
  | st, c :: cs =>
    let r1 := call p EINTR st c
    let r2 := run p EINTR r1.2 cs
    (r1.1 :: r2.1, r2.2)

/-- Lexicographic order on `(tv_sec, tv_nsec)`. -/
def Timespec.le (a b : Timespec) : Prop :=
  a.tv_sec < b.tv_sec ∨ (a.tv_sec = b.tv_sec ∧ a.tv_nsec ≤ b.tv_nsec)

instance (a b : Timespec) : Decidable (Timespec.le a b) :=
  inferInstanceAs (Decidable (a.tv_sec < b.tv_sec ∨ (a.tv_sec = b.tv_sec ∧ a.tv_nsec ≤ b.tv_nsec)))

/-- Nanoseconds denoted by a `timespec`. -/
def Timespec.nanos (a : Timespec) : ℤ := a.tv_sec * 1000000000 + a.tv_nsec

/-- A clock state with three ticks per second and a zero offset. -/
def sampleState : TimeOffset := { frequency := 3, clock := 0, offset := 0 }

/-- A reading of one tick. -/
def sampleReading : Reading := { ticks := 1, ts := { tv_sec := 0, tv_nsec := 0 } }

end LPerformance

/-! ## Rounding to binary64 -/

namespace Double

theorem rnInt_intCast (n : ℤ) : rnInt (n : ℚ) = n := by
  simp [rnInt]

theorem rnInt_floor_le (x : ℚ) : ⌊x⌋ ≤ rnInt x := by
  unfold rnInt
  simp only
  split_ifs <;> omega

theorem rnInt_le_floor_succ (x : ℚ) : rnInt x ≤ ⌊x⌋ + 1 := by
  unfold rnInt
  simp only
  split_ifs <;> omega

theorem rnInt_sub_le (x : ℚ) : (rnInt x : ℚ) - x ≤ 1 / 2 := by
  have h1 := Int.floor_le x
  have h2 := Int.lt_floor_add_one x
  unfold rnInt
  simp only
  split_ifs with a b c
  · linarith
  · push_cast; linarith
  · linarith
  · push_cast; linarith

theorem sub_rnInt_le (x : ℚ) : x - (rnInt x : ℚ) ≤ 1 / 2 := by
  have h1 := Int.floor_le x
  have h2 := Int.lt_floor_add_one x
  unfold rnInt
  simp only
  split_ifs with a b c
  · linarith
  · push_cast; linarith
  · linarith
  · push_cast; linarith

theorem rnInt_mono {x y : ℚ} (h : x ≤ y) : rnInt x ≤ rnInt y := by
  have hf : ⌊x⌋ ≤ ⌊y⌋ := Int.floor_le_floor h
  rcases hf.lt_or_eq with hlt | heq
  · calc rnInt x ≤ ⌊x⌋ + 1 := rnInt_le_floor_succ x
      _ ≤ ⌊y⌋ := hlt
      _ ≤ rnInt y := rnInt_floor_le y
  · unfold rnInt
    simp only
    rw [heq]
    have hr : x - (⌊y⌋ : ℚ) ≤ y - (⌊y⌋ : ℚ) := by linarith
    split_ifs <;> first | omega | (exfalso; linarith)

theorem rnInt_le_of_le_intCast {x : ℚ} {n : ℤ} (h : x ≤ n) : rnInt x ≤ n := by
  have := rnInt_mono h
  rwa [rnInt_intCast] at this

theorem le_rnInt_of_intCast_le {x : ℚ} {n : ℤ} (h : (n : ℚ) ≤ x) : n ≤ rnInt x := by
  have := rnInt_mono h
  rwa [rnInt_intCast] at this

theorem log2_eq {x : ℚ} {e : ℤ} (h1 : (2 : ℚ) ^ e ≤ x) (h2 : x < (2 : ℚ) ^ (e + 1)) :
    Int.log 2 x = e := by
  have hx : 0 < x := lt_of_lt_of_le (by positivity) h1
  have a : e ≤ Int.log 2 x := by
    rw [← Int.zpow_le_iff_le_log (by norm_num) hx]
    simpa using h1
  have b : Int.log 2 x < e + 1 := by
    rw [← Int.lt_zpow_iff_log_lt (by norm_num) hx]
    simpa using h2
  omega

theorem pow_log2_le {x : ℚ} (hx : 0 < x) : (2 : ℚ) ^ Int.log 2 x ≤ x := by
  simpa using Int.zpow_log_le_self (b := 2) (by norm_num) hx

theorem lt_pow_log2_succ (x : ℚ) : x < (2 : ℚ) ^ (Int.log 2 x + 1) := by
  simpa using Int.lt_zpow_succ_log_self (b := 2) (by norm_num) x

theorem ulp_pos (x : ℚ) : 0 < ulp x := by
  unfold ulp
  positivity

theorem expo_ge (x : ℚ) : -1022 ≤ expo x := le_max_right _ _

theorem expo_of_nonneg {x : ℚ} (hx : 0 ≤ x) : expo x = max (Int.log 2 x) (-1022) := by
  unfold expo
  rw [abs_of_nonneg hx]

theorem expo_mono {x y : ℚ} (hx : 0 < x) (h : x ≤ y) : expo x ≤ expo y := by
  rw [expo_of_nonneg hx.le, expo_of_nonneg (hx.le.trans h)]
  exact max_le_max (Int.log_mono_right hx h) le_rfl

theorem lt_pow_expo_succ {x : ℚ} (hx : 0 ≤ x) : x < (2 : ℚ) ^ (expo x + 1) := by
  have h1 := lt_pow_log2_succ x
  have h2 : Int.log 2 x + 1 ≤ expo x + 1 := by
    rw [expo_of_nonneg hx]
    have := le_max_left (Int.log 2 x) (-1022)
    omega
  exact lt_of_lt_of_le h1 (zpow_le_zpow_right₀ (by norm_num) h2)

theorem rnInt_zero : rnInt 0 = 0 := by
  simpa using rnInt_intCast 0

theorem roundQ_zero : roundQ 0 = 0 := by
  simp [roundQ, rnInt_zero]

theorem two_zpow_split (e : ℤ) (k : ℕ) :
    (2 : ℚ) ^ (e + k) = (((2 : ℤ) ^ k : ℤ) : ℚ) * (2 : ℚ) ^ e := by
  rw [zpow_add₀ (by norm_num), zpow_natCast]
  push_cast
  ring

theorem roundQ_nonneg {x : ℚ} (hx : 0 ≤ x) : 0 ≤ roundQ x := by
  unfold roundQ
  have hu := ulp_pos x
  have h0 : (0 : ℤ) ≤ rnInt (x / ulp x) :=
    le_rnInt_of_intCast_le (by simpa using div_nonneg hx hu.le)
  have : (0 : ℚ) ≤ (rnInt (x / ulp x) : ℚ) := by exact_mod_cast h0
  positivity

theorem roundQ_le_pow {x : ℚ} (hx : 0 ≤ x) : roundQ x ≤ (2 : ℚ) ^ (expo x + 1) := by
  unfold roundQ
  have hu := ulp_pos x
  have hlt := lt_pow_expo_succ hx
  have hsplit : (2 : ℚ) ^ (expo x + 1) = ((2 ^ 53 : ℤ) : ℚ) * ulp x := by
    unfold ulp
    rw [← two_zpow_split]
    congr 1
    push_cast
    ring
  rw [hsplit]
  have hq : x / ulp x ≤ ((2 ^ 53 : ℤ) : ℚ) := by
    rw [div_le_iff₀ hu, ← hsplit]
    exact hlt.le
  have := rnInt_le_of_le_intCast hq
  have hc : (rnInt (x / ulp x) : ℚ) ≤ ((2 ^ 53 : ℤ) : ℚ) := by exact_mod_cast this
  exact mul_le_mul_of_nonneg_right hc hu.le

theorem pow_le_roundQ {x : ℚ} (hx : 0 < x) (hn : -1022 ≤ Int.log 2 x) :
    (2 : ℚ) ^ expo x ≤ roundQ x := by
  unfold roundQ
  have hu := ulp_pos x
  have he : expo x = Int.log 2 x := by
    rw [expo_of_nonneg hx.le]
    exact max_eq_left hn
  have hle : (2 : ℚ) ^ expo x ≤ x := by
    rw [he]
    exact pow_log2_le hx
  have hsplit : (2 : ℚ) ^ expo x = ((2 ^ 52 : ℤ) : ℚ) * ulp x := by
    unfold ulp
    rw [← two_zpow_split]
    congr 1
    push_cast
    ring
  rw [hsplit]
  have hq : ((2 ^ 52 : ℤ) : ℚ) ≤ x / ulp x := by
    rw [le_div_iff₀ hu, ← hsplit]
    exact hle
  have := le_rnInt_of_intCast_le hq
  have hc : ((2 ^ 52 : ℤ) : ℚ) ≤ (rnInt (x / ulp x) : ℚ) := by exact_mod_cast this
  exact mul_le_mul_of_nonneg_right hc hu.le

theorem roundQ_mono {x y : ℚ} (hx : 0 ≤ x) (h : x ≤ y) : roundQ x ≤ roundQ y := by
  rcases hx.lt_or_eq with hpos | hzero
  · have hy : 0 < y := lt_of_lt_of_le hpos h
    rcases (expo_mono hpos h).lt_or_eq with hlt | heq
    · have hlog : -1022 ≤ Int.log 2 y := by
        by_contra hcon
        have : expo y = -1022 := by
          rw [expo_of_nonneg hy.le]
          exact max_eq_right (by omega)
        have := expo_ge x
        omega
      calc roundQ x ≤ (2 : ℚ) ^ (expo x + 1) := roundQ_le_pow hx
        _ ≤ (2 : ℚ) ^ expo y := zpow_le_zpow_right₀ (by norm_num) (by omega)
        _ ≤ roundQ y := pow_le_roundQ hy hlog
    · have hu : ulp x = ulp y := by
        unfold ulp
        rw [heq]
      unfold roundQ
      rw [hu]
      have hq : x / ulp y ≤ y / ulp y := div_le_div_of_nonneg_right h (ulp_pos y).le
      have hc : (rnInt (x / ulp y) : ℚ) ≤ (rnInt (y / ulp y) : ℚ) := by
        exact_mod_cast rnInt_mono hq
      exact mul_le_mul_of_nonneg_right hc (ulp_pos y).le
  · rw [← hzero, roundQ_zero]
    exact roundQ_nonneg (hx.trans h)

theorem roundQ_of_int_div {x : ℚ} {m : ℤ} (h : x / ulp x = m) : roundQ x = x := by
  unfold roundQ
  rw [h, rnInt_intCast, ← h]
  exact div_mul_cancel₀ x (ulp_pos x).ne'

theorem roundQ_sub_le (x : ℚ) : roundQ x - x ≤ ulp x / 2 := by
  unfold roundQ
  have hu := ulp_pos x
  have h := rnInt_sub_le (x / ulp x)
  have hx : x = x / ulp x * ulp x := (div_mul_cancel₀ x hu.ne').symm
  nlinarith

theorem sub_roundQ_le (x : ℚ) : x - roundQ x ≤ ulp x / 2 := by
  unfold roundQ
  have hu := ulp_pos x
  have h := sub_rnInt_le (x / ulp x)
  have hx : x = x / ulp x * ulp x := (div_mul_cancel₀ x hu.ne').symm
  nlinarith

theorem ulp_le_of_normal {x : ℚ} (hx : 0 < x) (hn : -1022 ≤ Int.log 2 x) :
    ulp x / 2 ≤ x / 2 ^ 53 := by
  have he : expo x = Int.log 2 x := by
    rw [expo_of_nonneg hx.le]
    exact max_eq_left hn
  have hle : (2 : ℚ) ^ expo x ≤ x := by
    rw [he]
    exact pow_log2_le hx
  have hsplit : (2 : ℚ) ^ expo x = ((2 ^ 52 : ℤ) : ℚ) * ulp x := by
    unfold ulp
    rw [← two_zpow_split]
    congr 1
    push_cast
    ring
  rw [hsplit] at hle
  push_cast at hle
  have hu := ulp_pos x
  rw [div_le_div_iff₀ (by norm_num) (by norm_num)]
  nlinarith

theorem roundQ_rel_error {x : ℚ} (hx : 0 < x) (hn : -1022 ≤ Int.log 2 x) :
    |roundQ x - x| ≤ x / 2 ^ 53 := by
  have h1 := roundQ_sub_le x
  have h2 := sub_roundQ_le x
  have h3 := ulp_le_of_normal hx hn
  rw [abs_le]
  constructor <;> linarith

theorem rnInt_eq_of_lt {x : ℚ} {n : ℤ} (hlo : (n : ℚ) - 1 / 2 < x) (hhi : x < (n : ℚ) + 1 / 2) :
    rnInt x = n := by
  have h1 := rnInt_sub_le x
  have h2 := sub_rnInt_le x
  have a : (rnInt x : ℚ) < (n : ℚ) + 1 := by linarith
  have b : (n : ℚ) - 1 < (rnInt x : ℚ) := by linarith
  have a' : rnInt x < n + 1 := by exact_mod_cast a
  have b' : n - 1 < rnInt x := by exact_mod_cast b
  omega

theorem expo_eq {x : ℚ} {e : ℤ} (h1 : (2 : ℚ) ^ e ≤ |x|) (h2 : |x| < (2 : ℚ) ^ (e + 1))
    (he : -1022 ≤ e) : expo x = e := by
  unfold expo
  rw [log2_eq h1 h2]
  exact max_eq_left he

theorem roundQ_eval {x : ℚ} {e n : ℤ} (h1 : (2 : ℚ) ^ e ≤ |x|) (h2 : |x| < (2 : ℚ) ^ (e + 1))
    (he : -1022 ≤ e) (hlo : (n : ℚ) - 1 / 2 < x / (2 : ℚ) ^ (e - 52))
    (hhi : x / (2 : ℚ) ^ (e - 52) < (n : ℚ) + 1 / 2) :
    roundQ x = (n : ℚ) * (2 : ℚ) ^ (e - 52) := by
  unfold roundQ ulp
  rw [expo_eq h1 h2 he, rnInt_eq_of_lt hlo hhi]

theorem roundQ_of_grid {x : ℚ} {m j : ℤ} (hx : x = (m : ℚ) * (2 : ℚ) ^ j)
    (hj : expo x - 52 ≤ j) : roundQ x = x := by
  obtain ⟨k, hk⟩ := Int.eq_ofNat_of_zero_le (sub_nonneg.mpr hj)
  have hs := two_zpow_split (expo x - 52) k
  have hjk : expo x - 52 + (k : ℤ) = j := by omega
  rw [hjk] at hs
  apply roundQ_of_int_div (m := m * 2 ^ k)
  have hu := ulp_pos x
  rw [div_eq_iff hu.ne']
  have hu' : ulp x = (2 : ℚ) ^ (expo x - 52) := rfl
  rw [hu']
  conv_lhs => rw [hx, hs]
  push_cast
  ring

theorem expo_le_of_lt {x : ℚ} {e : ℤ} (hx : 0 < x) (h : x < (2 : ℚ) ^ (e + 1))
    (he : -1022 ≤ e) : expo x ≤ e := by
  rw [expo_of_nonneg hx.le]
  apply max_le _ he
  have := (Int.lt_zpow_iff_log_lt (b := 2) (by norm_num) hx).mp (by simpa using h)
  omega

theorem roundQ_natCast {n : ℕ} (h : n < 2 ^ 53) : roundQ (n : ℚ) = n := by
  rcases Nat.eq_zero_or_pos n with h0 | hpos
  · subst h0
    simpa using roundQ_zero
  · apply roundQ_of_grid (m := n) (j := 0)
    · simp
    · have hlt : (n : ℚ) < (2 : ℚ) ^ ((52 : ℤ) + 1) := by
        have : (n : ℚ) < ((2 ^ 53 : ℕ) : ℚ) := by exact_mod_cast h
        norm_num at this ⊢
        exact this
      have := expo_le_of_lt (by exact_mod_cast hpos) hlt (by norm_num)
      omega

theorem roundQ_two_pow (k : ℕ) : roundQ ((2 : ℚ) ^ k) = (2 : ℚ) ^ k := by
  have hpos : (0 : ℚ) < (2 : ℚ) ^ k := by positivity
  have he : expo ((2 : ℚ) ^ k) = (k : ℤ) := by
    apply expo_eq
    · rw [abs_of_pos hpos, zpow_natCast]
    · rw [abs_of_pos hpos, ← zpow_natCast]
      exact zpow_lt_zpow_right₀ (by norm_num) (by omega)
    · omega
  apply roundQ_of_grid (m := 1) (j := (k : ℤ))
  · simp
  · rw [he]
    omega

theorem roundQ_le_two_pow {x : ℚ} (hx : 0 ≤ x) {k : ℕ} (h : x ≤ (2 : ℚ) ^ k) :
    roundQ x ≤ (2 : ℚ) ^ k := by
  have := roundQ_mono hx h
  rwa [roundQ_two_pow] at this

theorem ofRat_eq_fin {x : ℚ} (hx : 0 ≤ x) (h : x ≤ (2 : ℚ) ^ 1023) :
    ofRat x = fin (roundQ x) := by
  unfold ofRat
  have h1 := roundQ_le_two_pow hx h
  have h2 := roundQ_nonneg hx
  rw [abs_of_nonneg h2, if_neg]
  have : (2 : ℚ) ^ 1023 < (2 : ℚ) ^ 1024 := by norm_num
  linarith

theorem ofNat_eq_fin {n : ℕ} (h : n < 2 ^ 64) : ofNat n = fin (roundQ (n : ℚ)) := by
  unfold ofNat
  apply ofRat_eq_fin (Nat.cast_nonneg n)
  have h1 : (n : ℚ) ≤ (2 : ℚ) ^ 64 := by exact_mod_cast h.le
  have h2 : (2 : ℚ) ^ 64 ≤ (2 : ℚ) ^ 1023 := by norm_num
  linarith

theorem roundQ_natCast_le {n : ℕ} (h : n < 2 ^ 64) : roundQ (n : ℚ) ≤ (2 : ℚ) ^ 64 := by
  apply roundQ_le_two_pow (Nat.cast_nonneg n)
  exact_mod_cast h.le

theorem one_le_roundQ_natCast {n : ℕ} (h : 0 < n) : 1 ≤ roundQ (n : ℚ) := by
  have h1 : ((1 : ℕ) : ℚ) ≤ (n : ℚ) := by exact_mod_cast h
  have h2 := roundQ_mono (by norm_num) h1
  rwa [roundQ_natCast (by norm_num), Nat.cast_one] at h2

end Double

namespace LPerformance

open Double

/-! ## The value of `performance_now` and `performance_counter` -/

theorem subU64_lt (a b : ℕ) : subU64 a b < 2 ^ 64 := by
  unfold subU64
  have h := Int.emod_lt_of_pos ((a : ℤ) - (b : ℤ)) (by norm_num : (0 : ℤ) < 2 ^ 64)
  have h0 := Int.emod_nonneg ((a : ℤ) - (b : ℤ)) (by norm_num : (2 : ℤ) ^ 64 ≠ 0)
  omega

theorem subU64_cast (a b : ℕ) : ((subU64 a b : ℕ) : ℤ) = ((a : ℤ) - (b : ℤ)) % 2 ^ 64 := by
  unfold subU64
  have h0 := Int.emod_nonneg ((a : ℤ) - (b : ℤ)) (by norm_num : (2 : ℤ) ^ 64 ≠ 0)
  omega

theorem subU64_of_le {a b : ℕ} (h : b ≤ a) (ha : a < 2 ^ 64) : subU64 a b = a - b := by
  unfold subU64
  have h1 : ((a : ℤ) - (b : ℤ)) % 2 ^ 64 = (a : ℤ) - (b : ℤ) :=
    Int.emod_eq_of_lt (by omega) (by omega)
  rw [h1]
  omega

theorem _GetTimeValue_lt (p : Platform) (st : TimeOffset) (r : Reading) :
    _GetTimeValue p st r < 2 ^ 64 := by
  unfold _GetTimeValue
  split <;> exact Nat.mod_lt _ (by norm_num)

/-- The value that `performance_now` pushes, for a frequency that fits `uint64_t` and is
not zero: both operands are converted to binary64 and the quotient is rounded once more. -/
theorem performance_now_val (p : Platform) (st : TimeOffset) (r : Reading)
    (hf : 0 < st.frequency) (hf64 : st.frequency < 2 ^ 64) :
    (performance_now p st r).1 =
      [Double.fin (roundQ (roundQ (subU64 (_GetTimeValue p st r) st.offset : ℕ)
        / roundQ (st.frequency : ℕ)))] := by
  unfold performance_now
  simp only
  rw [ofNat_eq_fin (subU64_lt _ _), ofNat_eq_fin hf64]
  have hb := one_le_roundQ_natCast hf
  have ha0 := roundQ_nonneg (Nat.cast_nonneg (subU64 (_GetTimeValue p st r) st.offset))
  have ha := roundQ_natCast_le (subU64_lt (_GetTimeValue p st r) st.offset)
  have hne : roundQ (st.frequency : ℚ) ≠ 0 := by linarith
  simp only [Double.div, if_neg hne]
  rw [ofRat_eq_fin]
  · positivity
  · have h1 : roundQ (subU64 (_GetTimeValue p st r) st.offset : ℕ) / roundQ (st.frequency : ℕ)
        ≤ roundQ (subU64 (_GetTimeValue p st r) st.offset : ℕ) :=
      div_le_self ha0 hb
    have h2 : (2 : ℚ) ^ 64 ≤ (2 : ℚ) ^ 1023 := by norm_num
    linarith

end LPerformance

namespace Double

theorem log2_ge_of_le {x : ℚ} {e : ℤ} (h : (2 : ℚ) ^ e ≤ x) : e ≤ Int.log 2 x := by
  have hx : 0 < x := lt_of_lt_of_le (by positivity) h
  rw [← Int.zpow_le_iff_le_log (by norm_num) hx]
  simpa using h

theorem roundQ_quot_error {d f : ℕ} (hf : 0 < f) (hf53 : f < 2 ^ 53) :
    |roundQ ((d : ℚ) / (f : ℚ)) - (d : ℚ) / (f : ℚ)| ≤ (d : ℚ) / (f : ℚ) / 2 ^ 53 := by
  rcases Nat.eq_zero_or_pos d with h0 | hd
  · subst h0
    simp [roundQ_zero]
  · have hfq : (0 : ℚ) < (f : ℚ) := by exact_mod_cast hf
    have hdq : (1 : ℚ) ≤ (d : ℚ) := by exact_mod_cast hd
    have hx : (0 : ℚ) < (d : ℚ) / (f : ℚ) := by positivity
    have hlow : (2 : ℚ) ^ (-53 : ℤ) ≤ (d : ℚ) / (f : ℚ) := by
      rw [zpow_neg, le_div_iff₀ hfq]
      have : ((2 : ℚ) ^ (53 : ℤ))⁻¹ * (f : ℚ) ≤ 1 := by
        rw [inv_mul_le_iff₀ (by positivity)]
        norm_num
        exact_mod_cast hf53.le
      linarith
    have hlog : (-53 : ℤ) ≤ Int.log 2 ((d : ℚ) / (f : ℚ)) := log2_ge_of_le hlow
    exact roundQ_rel_error hx (by omega)

end Double

namespace LPerformance

open Double

/-- C1 (amended): for a stored frequency `f` with `0 < f < 2^64`, `performance_now` pushes
the binary64 rounding of `rnd(d) / rnd(f)`, where `d = (t - o) mod 2^64` is the wrapped
tick difference and `rnd` is the conversion to `double`.  When `d` and `f` are below
`2^53` this is the correctly rounded quotient `rnd(d / f)`, within relative error `2^-53`
of `d / f`.  When `o ≤ t` no wrap occurs and `d = t - o`.  `performance_counter` pushes
`rnd(t)` for the same reading, which is `t` itself when `t < 2^53`. -/
theorem performance_now_rounded_quotient (p : Platform) (st : TimeOffset) (r : Reading)
    (hf : 0 < st.frequency) (hf64 : st.frequency < 2 ^ 64) :
    (performance_now p st r).1 =
        [Double.fin (roundQ (roundQ (subU64 (_GetTimeValue p st r) st.offset : ℕ)
          / roundQ (st.frequency : ℕ)))]
    ∧ ((subU64 (_GetTimeValue p st r) st.offset : ℕ) : ℤ)
        = ((_GetTimeValue p st r : ℤ) - (st.offset : ℤ)) % 2 ^ 64
    ∧ (subU64 (_GetTimeValue p st r) st.offset < 2 ^ 53 → st.frequency < 2 ^ 53 →
        (performance_now p st r).1 =
          [Double.fin (roundQ ((subU64 (_GetTimeValue p st r) st.offset : ℕ)
            / (st.frequency : ℚ)))]
        ∧ |roundQ ((subU64 (_GetTimeValue p st r) st.offset : ℕ) / (st.frequency : ℚ))
            - (subU64 (_GetTimeValue p st r) st.offset : ℕ) / (st.frequency : ℚ)|
          ≤ (subU64 (_GetTimeValue p st r) st.offset : ℕ) / (st.frequency : ℚ) / 2 ^ 53)
    ∧ (st.offset ≤ _GetTimeValue p st r →
        subU64 (_GetTimeValue p st r) st.offset = _GetTimeValue p st r - st.offset)
    ∧ (performance_counter p st r).1 = [Double.fin (roundQ (_GetTimeValue p st r : ℕ))]
    ∧ (_GetTimeValue p st r < 2 ^ 53 →
        (performance_counter p st r).1 = [Double.fin (_GetTimeValue p st r : ℕ)]) := by
  have hval := performance_now_val p st r hf hf64
  have hcnt : (performance_counter p st r).1
      = [Double.fin (roundQ (_GetTimeValue p st r : ℕ))] := by
    unfold performance_counter
    simp only
    rw [ofNat_eq_fin (_GetTimeValue_lt p st r)]
  refine ⟨hval, subU64_cast _ _, ?_, ?_, hcnt, ?_⟩
  · intro hd hf53
    constructor
    · rw [hval, roundQ_natCast hd, roundQ_natCast hf53]
    · exact roundQ_quot_error hf hf53
  · intro hle
    exact subU64_of_le hle (_GetTimeValue_lt p st r)
  · intro ht
    rw [hcnt, roundQ_natCast ht]

end LPerformance

namespace Double

theorem rnInt_tie {x : ℚ} {n : ℤ} (hx : x = (n : ℚ) + 1 / 2) :
    rnInt x = if n % 2 = 0 then n else n + 1 := by
  have hfl : ⌊x⌋ = n := by
    rw [Int.floor_eq_iff]
    constructor <;> linarith
  unfold rnInt
  simp only [hfl]
  have hr : x - (n : ℚ) = 1 / 2 := by linarith
  rw [hr]
  simp

theorem roundQ_one_third :
    roundQ (1 / 3) = 6004799503160661 / 18014398509481984 := by
  have h := roundQ_eval (x := 1 / 3) (e := -2) (n := 6004799503160661)
    (by norm_num [abs_of_pos]) (by norm_num [abs_of_pos]) (by norm_num)
    (by norm_num) (by norm_num)
  rw [h]
  norm_num

theorem roundQ_two_pow_53_succ : roundQ (9007199254740993 : ℚ) = 9007199254740992 := by
  have he : expo (9007199254740993 : ℚ) = 53 :=
    expo_eq (by norm_num [abs_of_pos]) (by norm_num [abs_of_pos]) (by norm_num)
  have ht : rnInt ((9007199254740993 : ℚ) / 2) = 4503599627370496 := by
    rw [rnInt_tie (n := 4503599627370496) (by norm_num)]
    norm_num
  unfold roundQ ulp
  rw [he]
  norm_num
  rw [ht]
  norm_num

end Double

namespace LPerformance

open Double

/-- C1, counterexample: with one tick elapsed at three ticks per second the value pushed
by `performance_now` is the binary64 number `6004799503160661 / 2^54`, not the quotient
`1 / 3`; and for the tick value `2^53 + 1` `performance_counter` pushes `2^53`. -/
theorem performance_now_not_exact :
    _GetTimeValue .win32 ⟨3, 0, 0⟩ ⟨1, ⟨0, 0⟩⟩ = 1
    ∧ subU64 1 0 = 1
    ∧ (performance_now .win32 ⟨3, 0, 0⟩ ⟨1, ⟨0, 0⟩⟩).1
        = [Double.fin (6004799503160661 / 18014398509481984)]
    ∧ (performance_now .win32 ⟨3, 0, 0⟩ ⟨1, ⟨0, 0⟩⟩).1
        ≠ [Double.fin (((subU64 1 0 : ℕ) : ℚ) / ((3 : ℕ) : ℚ))]
    ∧ (performance_counter .win32 ⟨3, 0, 0⟩ ⟨9007199254740993, ⟨0, 0⟩⟩).1
        = [Double.fin 9007199254740992] := by
  have ht : _GetTimeValue .win32 ⟨3, 0, 0⟩ ⟨1, ⟨0, 0⟩⟩ = 1 := by
    simp [_GetTimeValue]
  have hs : subU64 1 0 = 1 := by
    simp [subU64]
  have hv : (performance_now .win32 ⟨3, 0, 0⟩ ⟨1, ⟨0, 0⟩⟩).1
      = [Double.fin (6004799503160661 / 18014398509481984)] := by
    rw [performance_now_val _ _ _ (by norm_num) (by norm_num)]
    simp only [ht, hs]
    rw [roundQ_natCast (by norm_num), roundQ_natCast (by norm_num)]
    norm_num
    exact roundQ_one_third
  refine ⟨ht, hs, hv, ?_, ?_⟩
  · rw [hv, hs]
    norm_num
  · have hc : _GetTimeValue .win32 ⟨3, 0, 0⟩ ⟨9007199254740993, ⟨0, 0⟩⟩ = 9007199254740993 := by
      simp [_GetTimeValue]
    unfold performance_counter
    simp only [hc]
    rw [ofNat_eq_fin (by norm_num)]
    norm_num
    exact roundQ_two_pow_53_succ

/-- C1, witness: the amended statement at three ticks per second and one tick elapsed. -/
theorem performance_now_rounded_quotient_witness :
    (0 < sampleState.frequency ∧ sampleState.frequency < 2 ^ 64)
    ∧ ((performance_now .win32 sampleState sampleReading).1 =
        [Double.fin (roundQ (roundQ
          (subU64 (_GetTimeValue .win32 sampleState sampleReading) sampleState.offset : ℕ)
          / roundQ (sampleState.frequency : ℕ)))]
    ∧ ((subU64 (_GetTimeValue .win32 sampleState sampleReading) sampleState.offset : ℕ) : ℤ)
        = ((_GetTimeValue .win32 sampleState sampleReading : ℤ)
            - (sampleState.offset : ℤ)) % 2 ^ 64
    ∧ (subU64 (_GetTimeValue .win32 sampleState sampleReading) sampleState.offset < 2 ^ 53 →
        sampleState.frequency < 2 ^ 53 →
        (performance_now .win32 sampleState sampleReading).1 =
          [Double.fin (roundQ
            ((subU64 (_GetTimeValue .win32 sampleState sampleReading) sampleState.offset : ℕ)
              / (sampleState.frequency : ℚ)))]
        ∧ |roundQ
              ((subU64 (_GetTimeValue .win32 sampleState sampleReading) sampleState.offset : ℕ)
                / (sampleState.frequency : ℚ))
            - (subU64 (_GetTimeValue .win32 sampleState sampleReading) sampleState.offset : ℕ)
                / (sampleState.frequency : ℚ)|
          ≤ (subU64 (_GetTimeValue .win32 sampleState sampleReading) sampleState.offset : ℕ)
              / (sampleState.frequency : ℚ) / 2 ^ 53)
    ∧ (sampleState.offset ≤ _GetTimeValue .win32 sampleState sampleReading →
        subU64 (_GetTimeValue .win32 sampleState sampleReading) sampleState.offset
          = _GetTimeValue .win32 sampleState sampleReading - sampleState.offset)
    ∧ (performance_counter .win32 sampleState sampleReading).1
        = [Double.fin (roundQ (_GetTimeValue .win32 sampleState sampleReading : ℕ))]
    ∧ (_GetTimeValue .win32 sampleState sampleReading < 2 ^ 53 →
        (performance_counter .win32 sampleState sampleReading).1
          = [Double.fin (_GetTimeValue .win32 sampleState sampleReading : ℕ)])) :=
  ⟨⟨by decide, by decide⟩,
    performance_now_rounded_quotient .win32 sampleState sampleReading (by decide) (by decide)⟩

/-! ## Initialisation: the reference offset -/

theorem subU64_self {a : ℕ} : subU64 a a = 0 := by
  simp [subU64]

theorem _GetTimeValue_congr (p : Platform) (st st1 : TimeOffset) (r : Reading)
    (h : st.frequency = st1.frequency) : _GetTimeValue p st r = _GetTimeValue p st1 r := by
  unfold _GetTimeValue
  rw [h]

theorem _InitTime_frequency_lt (p : Platform) (ids : ClockIds) (env : InitEnv)
    (st0 st1 : TimeOffset) (h : _InitTime p ids env st0 = some st1) :
    st1.frequency < 2 ^ 64 := by
  unfold _InitTime at h
  cases p with
  | win32 =>
    simp only [Option.some.injEq] at h
    rw [← h]
    exact Nat.mod_lt _ (by norm_num)
  | apple =>
    simp only at h
    split at h
    · rename_i f hf
      simp only [Option.some.injEq] at h
      rw [← h]
      simp only
      unfold Double.toUInt64 at hf
      split at hf
      · split at hf
        · rename_i hr
          simp only [Option.some.injEq] at hf
          omega
        · simp at hf
      · simp at hf
    · simp at h
  | posix =>
    simp only at h
    split at h <;>
    · simp only [Option.some.injEq] at h
      rw [← h]
      norm_num

theorem _InitTime_posix_frequency (ids : ClockIds) (env : InitEnv) (st0 st1 : TimeOffset)
    (h : _InitTime .posix ids env st0 = some st1) : st1.frequency = 1000000000 := by
  unfold _InitTime at h
  simp only at h
  split at h <;>
  · simp only [Option.some.injEq] at h
    rw [← h]

theorem performance_now_zero (p : Platform) (st : TimeOffset) (r : Reading)
    (hf : 0 < st.frequency) (hf64 : st.frequency < 2 ^ 64)
    (ho : st.offset = _GetTimeValue p st r) :
    (performance_now p st r).1 = [Double.fin 0] := by
  rw [performance_now_val p st r hf hf64, ← ho, subU64_self]
  simp [roundQ_zero]

/-- C2: `frequencyInitTimer` cannot fail on the Windows and POSIX branches; whenever it
yields a state, the stored offset is the tick value that `_GetTimeValue` returns for the
reading taken right after `_InitTime` (with the state `_InitTime` left), the other fields
are those `_InitTime` stored, and `performance_now` evaluated on that same reading pushes
exactly `0` as soon as the stored frequency is not zero, which always holds on the POSIX
branch. -/
theorem frequencyInitTimer_offset_is_first_reading (p : Platform) (ids : ClockIds)
    (env : InitEnv) (r : Reading) (st0 : TimeOffset) :
    (p ≠ .apple → ∃ st, frequencyInitTimer p ids env r st0 = some st)
    ∧ ∀ st, frequencyInitTimer p ids env r st0 = some st →
      (∃ st1, _InitTime p ids env st0 = some st1
        ∧ st.offset = _GetTimeValue p st1 r
        ∧ st.frequency = st1.frequency ∧ st.clock = st1.clock)
      ∧ st.offset = _GetTimeValue p st r
      ∧ (0 < st.frequency → (performance_now p st r).1 = [Double.fin 0])
      ∧ (p = .posix → (performance_now p st r).1 = [Double.fin 0]) := by
  constructor
  · intro hp
    cases p with
    | win32 => exact ⟨_, rfl⟩
    | apple => exact absurd rfl hp
    | posix =>
      unfold frequencyInitTimer _InitTime
      simp only
      by_cases hc : (env.hasMonotonic && env.probe == 0) = true
      · rw [if_pos hc]
        exact ⟨_, rfl⟩
      · rw [if_neg hc]
        exact ⟨_, rfl⟩
  · intro st h
    unfold frequencyInitTimer at h
    split at h
    · rename_i st1 h1
      simp only [Option.some.injEq] at h
      have hfr : st.frequency = st1.frequency := by rw [← h]
      have hoff : st.offset = _GetTimeValue p st1 r := by rw [← h]
      have hclk : st.clock = st1.clock := by rw [← h]
      have hoff2 : st.offset = _GetTimeValue p st r := by
        rw [hoff]
        exact (_GetTimeValue_congr p st st1 r hfr).symm
      have h64 : st.frequency < 2 ^ 64 := by
        rw [hfr]
        exact _InitTime_frequency_lt p ids env st0 st1 h1
      refine ⟨⟨st1, h1, hoff, hfr, hclk⟩, hoff2, ?_, ?_⟩
      · intro hpos
        exact performance_now_zero p st r hpos h64 hoff2
      · intro hp
        subst hp
        have := _InitTime_posix_frequency ids env st0 st1 h1
        exact performance_now_zero _ st r (by omega) h64 hoff2
    · simp at h

/-- C2, witness: the POSIX branch with the monotonic clock available and a first reading
of 5 s 7 ns. -/
theorem frequencyInitTimer_offset_is_first_reading_witness :
    frequencyInitTimer .posix ⟨0, 1⟩ ⟨0, 0, 0, true, 0⟩ ⟨0, ⟨5, 7⟩⟩ ⟨0, 0, 0⟩
      = some ⟨1000000000, 1, 5000000007⟩
    ∧ (⟨1000000000, 1, 5000000007⟩ : TimeOffset).offset
        = _GetTimeValue .posix ⟨1000000000, 1, 5000000007⟩ ⟨0, ⟨5, 7⟩⟩
    ∧ (performance_now .posix ⟨1000000000, 1, 5000000007⟩ ⟨0, ⟨5, 7⟩⟩).1 = [Double.fin 0] :=
  have h : frequencyInitTimer .posix ⟨0, 1⟩ ⟨0, 0, 0, true, 0⟩ ⟨0, ⟨5, 7⟩⟩ ⟨0, 0, 0⟩
      = some ⟨1000000000, 1, 5000000007⟩ := by decide
  have t := (frequencyInitTimer_offset_is_first_reading .posix ⟨0, 1⟩ ⟨0, 0, 0, true, 0⟩
    ⟨0, ⟨5, 7⟩⟩ ⟨0, 0, 0⟩).2 _ h
  ⟨h, t.2.1, t.2.2.2 rfl⟩

/-! ## Monotonicity of `performance_now` on the POSIX branch -/

theorem toU64_of_nonneg {i : ℤ} (h0 : 0 ≤ i) (h1 : i < 2 ^ 64) : ((toU64 i : ℕ) : ℤ) = i := by
  unfold toU64
  have : i % 2 ^ 64 = i := Int.emod_eq_of_lt h0 h1
  rw [this]
  omega

theorem _GetTimeValue_posix_nanos (st : TimeOffset) (r : Reading)
    (hf : st.frequency = 1000000000) (hs : 0 ≤ r.ts.tv_sec)
    (hn : 0 ≤ r.ts.tv_nsec ∧ r.ts.tv_nsec < 1000000000) (hb : r.ts.nanos < 2 ^ 64) :
    ((_GetTimeValue .posix st r : ℕ) : ℤ) = r.ts.nanos := by
  unfold Timespec.nanos at *
  unfold _GetTimeValue
  simp only [hf]
  have h1 := toU64_of_nonneg hs (by omega)
  have h2 := toU64_of_nonneg hn.1 (by omega)
  have hlt : toU64 r.ts.tv_sec * 1000000000 + toU64 r.ts.tv_nsec < 2 ^ 64 := by
    have : ((toU64 r.ts.tv_sec * 1000000000 + toU64 r.ts.tv_nsec : ℕ) : ℤ) < 2 ^ 64 := by
      push_cast
      rw [h1, h2]
      exact hb
    exact_mod_cast this
  rw [Nat.mod_eq_of_lt hlt]
  push_cast
  rw [h1, h2]

theorem Timespec.nanos_le_of_le {a b : Timespec} (h : Timespec.le a b)
    (ha : a.tv_nsec < 1000000000) (hb : 0 ≤ b.tv_nsec) : a.nanos ≤ b.nanos := by
  unfold Timespec.le at h
  unfold Timespec.nanos
  rcases h with h | ⟨h1, h2⟩ <;> omega

theorem performance_now_mono_of_ticks (p : Platform) (st : TimeOffset) (r1 r2 : Reading)
    (hf : 0 < st.frequency) (hf64 : st.frequency < 2 ^ 64)
    (hd : subU64 (_GetTimeValue p st r1) st.offset ≤ subU64 (_GetTimeValue p st r2) st.offset) :
    ∃ a b : ℚ, (performance_now p st r1).1 = [Double.fin a]
      ∧ (performance_now p st r2).1 = [Double.fin b] ∧ a ≤ b := by
  refine ⟨_, _, performance_now_val p st r1 hf hf64, performance_now_val p st r2 hf hf64, ?_⟩
  have hb := one_le_roundQ_natCast hf
  have h1 : ((subU64 (_GetTimeValue p st r1) st.offset : ℕ) : ℚ)
      ≤ ((subU64 (_GetTimeValue p st r2) st.offset : ℕ) : ℚ) := by exact_mod_cast hd
  have h2 := roundQ_mono (Nat.cast_nonneg _) h1
  have h0 := roundQ_nonneg (Nat.cast_nonneg (subU64 (_GetTimeValue p st r1) st.offset))
  apply roundQ_mono
  · positivity
  · exact div_le_div_of_nonneg_right h2 (by linarith)

/-- C3: on the POSIX branch, let the state come from `frequencyInitTimer` with a first
reading `r0` whose `tv_sec` is not negative, and let `r1`, `r2` be later readings in that
order (`r0 ≤ r1 ≤ r2` lexicographically, every `tv_nsec` in `[0, 10^9)`, and
`tv_sec * 10^9 + tv_nsec < 2^64` for the last one).  Then the values that
`performance_now` pushes for `r1` and `r2` are finite and the second is at least the
first. -/
theorem performance_now_monotone_posix (ids : ClockIds) (env : InitEnv)
    (r0 r1 r2 : Reading) (st0 st : TimeOffset)
    (hinit : frequencyInitTimer .posix ids env r0 st0 = some st)
    (hs0 : 0 ≤ r0.ts.tv_sec)
    (hn0 : 0 ≤ r0.ts.tv_nsec ∧ r0.ts.tv_nsec < 1000000000)
    (hn1 : 0 ≤ r1.ts.tv_nsec ∧ r1.ts.tv_nsec < 1000000000)
    (hn2 : 0 ≤ r2.ts.tv_nsec ∧ r2.ts.tv_nsec < 1000000000)
    (h01 : Timespec.le r0.ts r1.ts) (h12 : Timespec.le r1.ts r2.ts)
    (hb : r2.ts.tv_sec * 1000000000 + r2.ts.tv_nsec < 2 ^ 64) :
    ∃ a b : ℚ, (performance_now .posix st r1).1 = [Double.fin a]
      ∧ (performance_now .posix st r2).1 = [Double.fin b]
      ∧ a ≤ b
      ∧ Double.le (Double.fin a) (Double.fin b) = true := by
  unfold frequencyInitTimer at hinit
  split at hinit
  · rename_i st1 h1
    simp only [Option.some.injEq] at hinit
    have hf1 := _InitTime_posix_frequency ids env st0 st1 h1
    have hf : st.frequency = 1000000000 := by rw [← hinit]; exact hf1
    have hoff : st.offset = _GetTimeValue .posix st1 r0 := by rw [← hinit]
    have e01 := Timespec.nanos_le_of_le h01 hn0.2 hn1.1
    have e12 := Timespec.nanos_le_of_le h12 hn1.2 hn2.1
    have hb2 : r2.ts.nanos < 2 ^ 64 := hb
    have hs1 : 0 ≤ r1.ts.tv_sec := by
      unfold Timespec.le at h01
      omega
    have hs2 : 0 ≤ r2.ts.tv_sec := by
      unfold Timespec.le at h12
      omega
    have g0 := _GetTimeValue_posix_nanos st1 r0 hf1 hs0 hn0 (by omega)
    have g1 := _GetTimeValue_posix_nanos st r1 hf hs1 hn1 (by omega)
    have g2 := _GetTimeValue_posix_nanos st r2 hf hs2 hn2 hb2
    have hle1 : st.offset ≤ _GetTimeValue .posix st r1 := by
      rw [hoff]
      omega
    have hle2 : st.offset ≤ _GetTimeValue .posix st r2 := by
      rw [hoff]
      omega
    have hd : subU64 (_GetTimeValue .posix st r1) st.offset
        ≤ subU64 (_GetTimeValue .posix st r2) st.offset := by
      rw [subU64_of_le hle1 (_GetTimeValue_lt _ _ _), subU64_of_le hle2 (_GetTimeValue_lt _ _ _)]
      omega
    obtain ⟨a, b, ha, hb', hab⟩ :=
      performance_now_mono_of_ticks .posix st r1 r2 (by omega) (by omega) hd
    exact ⟨a, b, ha, hb', hab, by simp [Double.le, hab]⟩
  · simp at hinit

/-- C3, witness: initialisation at 5 s 7 ns, then readings at 5 s 9 ns and 6 s 0 ns. -/
theorem performance_now_monotone_posix_witness :
    (frequencyInitTimer .posix ⟨0, 1⟩ ⟨0, 0, 0, true, 0⟩ ⟨0, ⟨5, 7⟩⟩ ⟨0, 0, 0⟩
        = some ⟨1000000000, 1, 5000000007⟩
      ∧ Timespec.le ⟨5, 7⟩ ⟨5, 9⟩ ∧ Timespec.le ⟨5, 9⟩ ⟨6, 0⟩
      ∧ (6 : ℤ) * 1000000000 + 0 < 2 ^ 64)
    ∧ ∃ a b : ℚ,
      (performance_now .posix ⟨1000000000, 1, 5000000007⟩ ⟨0, ⟨5, 9⟩⟩).1 = [Double.fin a]
      ∧ (performance_now .posix ⟨1000000000, 1, 5000000007⟩ ⟨0, ⟨6, 0⟩⟩).1 = [Double.fin b]
      ∧ a ≤ b
      ∧ Double.le (Double.fin a) (Double.fin b) = true :=
  ⟨⟨by decide, by decide, by decide, by decide⟩,
    performance_now_monotone_posix ⟨0, 1⟩ ⟨0, 0, 0, true, 0⟩ ⟨0, ⟨5, 7⟩⟩ ⟨0, ⟨5, 9⟩⟩
      ⟨0, ⟨6, 0⟩⟩ ⟨0, 0, 0⟩ ⟨1000000000, 1, 5000000007⟩ (by decide) (by decide)
      (by decide) (by decide) (by decide) (by decide) (by decide) (by decide)⟩

/-! ## Clock selection in `_InitTime` on the POSIX branch -/

/-- C4: on the POSIX branch `_InitTime` always yields a state (there is no error path);
the recorded frequency is exactly `1000000000`, hence positive; the offset is left alone;
and, the two clock ids being distinct, the recorded clock is the monotonic id exactly when
the probe `clock_gettime(CLOCK_MONOTONIC, &ts)` is compiled in and returns `0`, and the
realtime id otherwise. -/
theorem _InitTime_posix_selects_clock (ids : ClockIds) (env : InitEnv) (st : TimeOffset)
    (hne : ids.CLOCK_REALTIME % 2 ^ 64 ≠ ids.CLOCK_MONOTONIC % 2 ^ 64) :
    ∃ st1, _InitTime .posix ids env st = some st1
      ∧ st1.frequency = 1000000000
      ∧ 0 < st1.frequency
      ∧ st1.offset = st.offset
      ∧ (st1.clock = ids.CLOCK_MONOTONIC % 2 ^ 64 ↔ (env.hasMonotonic = true ∧ env.probe = 0))
      ∧ (st1.clock = ids.CLOCK_REALTIME % 2 ^ 64 ↔ ¬ (env.hasMonotonic = true ∧ env.probe = 0)) := by
  unfold _InitTime
  simp only
  by_cases hc : env.hasMonotonic = true ∧ env.probe = 0
  · have hc' : (env.hasMonotonic && env.probe == 0) = true := by
      simp [hc.1, hc.2]
    rw [if_pos hc']
    refine ⟨_, rfl, rfl, by norm_num, rfl, ?_, ?_⟩
    · simp [hc]
    · simp only [hc, and_self, not_true_eq_false, iff_false]
      exact fun h => hne h.symm
  · have hc' : ¬ (env.hasMonotonic && env.probe == 0) = true := by
      intro h
      simp only [Bool.and_eq_true, beq_iff_eq] at h
      exact hc h
    rw [if_neg hc']
    refine ⟨_, rfl, rfl, by norm_num, rfl, ?_, ?_⟩
    · simp only [hc, iff_false]
      exact hne
    · simp [hc]

/-- C4, witness: Linux clock ids, probe succeeding. -/
theorem _InitTime_posix_selects_clock_witness :
    ((0 : ℕ) % 2 ^ 64 ≠ (1 : ℕ) % 2 ^ 64)
    ∧ ∃ st1, _InitTime .posix ⟨0, 1⟩ ⟨0, 0, 0, true, 0⟩ ⟨0, 0, 0⟩ = some st1
      ∧ st1.frequency = 1000000000
      ∧ 0 < st1.frequency
      ∧ st1.offset = (⟨0, 0, 0⟩ : TimeOffset).offset
      ∧ (st1.clock = (1 : ℕ) % 2 ^ 64 ↔ ((true : Bool) = true ∧ (0 : ℤ) = 0))
      ∧ (st1.clock = (0 : ℕ) % 2 ^ 64 ↔ ¬ ((true : Bool) = true ∧ (0 : ℤ) = 0)) :=
  ⟨by decide, _InitTime_posix_selects_clock ⟨0, 1⟩ ⟨0, 0, 0, true, 0⟩ ⟨0, 0, 0⟩ (by decide)⟩

/-! ## The exported operations leave the clock state alone -/

theorem call_state (p : Platform) (e : ℤ) (st : TimeOffset) (c : Call) :
    (call p e st c).2 = st := by
  cases c <;> rfl

theorem run_state (p : Platform) (e : ℤ) (st : TimeOffset) (cs : List Call) :
    (run p e st cs).2 = st := by
  induction cs generalizing st with
  | nil => rfl
  | cons c cs ih =>
    unfold run
    simp only
    rw [ih, call_state]

theorem run_outputs (p : Platform) (e : ℤ) (st : TimeOffset) (cs : List Call) :
    (run p e st cs).1 = cs.map (fun c => (call p e st c).1) := by
  induction cs generalizing st with
  | nil => rfl
  | cons c cs ih =>
    unfold run
    simp only [List.map_cons]
    rw [call_state, ih]

/-- C5: none of `performance_counter`, `performance_frequency`, `performance_now` and
`performance_sleep` changes the stored clock state (frequency, clock id, offset); after any
sequence of calls from any state the state is the one the sequence started from, every
call was answered from that same state, and every `performance_frequency` call pushed the
same value, the stored frequency converted to `double`. -/
theorem run_leaves_clock_state (p : Platform) (e : ℤ) (st : TimeOffset) (cs : List Call) :
    (∀ r, (performance_counter p st r).2 = st)
    ∧ (performance_frequency st).2 = st
    ∧ (∀ r, (performance_now p st r).2 = st)
    ∧ (∀ c, (call p e st c).2 = st)
    ∧ (run p e st cs).2 = st
    ∧ (run p e st cs).1 = cs.map (fun c => (call p e st c).1)
    ∧ (∀ c o, (c, o) ∈ cs.zip (run p e st cs).1 → c = Call.frequency →
        o = Output.values [Double.ofNat st.frequency]) := by
  refine ⟨fun _ => rfl, rfl, fun _ => rfl, call_state p e st, run_state p e st cs,
    run_outputs p e st cs, ?_⟩
  intro c o hmem hc
  rw [run_outputs] at hmem
  rw [List.zip_map_right] at hmem
  simp only [List.mem_map] at hmem
  obtain ⟨⟨c1, c2⟩, h1, h2⟩ := hmem
  have hcc := List.of_mem_zip h1
  simp only [Prod.map_apply, id_eq, Prod.mk.injEq] at h2
  obtain ⟨ha, hb⟩ := h2
  subst ha
  rw [← hb]
  have : c2 = c1 := by
    have := List.mem_iff_get.mp h1
    obtain ⟨i, hi⟩ := this
    simp only [List.get_eq_getElem, List.getElem_zip, Prod.mk.injEq] at hi
    rw [← hi.1, ← hi.2]
  subst this
  subst hc
  rfl

/-! ## `performance_sleep`: requests that are not positive -/

theorem le_zero_of_gt_zero {x : Double} (h : Double.gt x (Double.fin 0) = true) :
    Double.le x (Double.fin 0) = false := by
  cases x with
  | nan => rfl
  | inf s =>
    simp only [Double.gt, Bool.not_eq_true'] at h
    simp [Double.le, h]
  | fin a =>
    simp only [Double.gt, decide_eq_true_eq] at h
    simp only [Double.le, decide_eq_false_iff_not, not_le]
    exact h

/-- C6: when the argument is absent, or is a number `secs` with `secs <= 0` (the C
comparison, so any negative number, zero or minus infinity), `performance_sleep` returns
zero results on every branch without calling `Sleep` or `nanosleep`, whatever the
operating system would have answered. -/
theorem performance_sleep_nonpositive (p : Platform) (e : ℤ) (arg : Option Double)
    (os : List NanosleepReply)
    (h : arg = none ∨ ∃ secs, arg = some secs ∧ Double.le secs (Double.fin 0) = true) :
    performance_sleep p e arg os = SleepResult.returned 0 [] := by
  unfold performance_sleep luaL_optnumber
  rcases h with h | ⟨secs, h1, h2⟩
  · subst h
    simp [Double.le]
  · subst h1
    simp [h2]

/-- C6, witness: `sleep(-1)` on the POSIX branch. -/
theorem performance_sleep_nonpositive_witness :
    ((some (Double.fin (-1)) : Option Double) = none
      ∨ ∃ secs, (some (Double.fin (-1)) : Option Double) = some secs
          ∧ Double.le secs (Double.fin 0) = true)
    ∧ performance_sleep .posix 4 (some (Double.fin (-1))) [⟨0, none, none⟩]
        = SleepResult.returned 0 [] :=
  ⟨Or.inr ⟨_, rfl, by simp [Double.le]⟩,
    performance_sleep_nonpositive .posix 4 (some (Double.fin (-1))) [⟨0, none, none⟩]
      (Or.inr ⟨_, rfl, by simp [Double.le]⟩)⟩

end LPerformance

namespace Double

/-! ## `performance_sleep` on the Windows branch -/

theorem ofRat_eval {x r : ℚ} (h : roundQ x = r) (hr : |r| < (2 : ℚ) ^ 1024) :
    ofRat x = fin r := by
  unfold ofRat
  rw [h, if_neg (not_le.mpr hr)]

theorem truncQ_natCast (n : ℕ) : truncQ (n : ℚ) = n := by
  unfold truncQ
  rw [if_pos (Nat.cast_nonneg n)]
  exact Int.floor_natCast n

theorem toUInt64_natCast {n : ℕ} (h : n < 2 ^ 64) : toUInt64 (fin (n : ℚ)) = some n := by
  simp only [toUInt64]
  rw [truncQ_natCast]
  have : (0 : ℤ) ≤ (n : ℤ) ∧ (n : ℤ) < 2 ^ 64 := by
    constructor
    · omega
    · exact_mod_cast h
  rw [if_pos this]
  simp

theorem roundQ_one_ten_thousandth :
    roundQ (1 / 10000) = 7378697629483821 / 73786976294838206464 := by
  have h := roundQ_eval (x := 1 / 10000) (e := -14) (n := 7378697629483821)
    (by norm_num [abs_of_pos]) (by norm_num [abs_of_pos]) (by norm_num)
    (by norm_num) (by norm_num)
  rw [h]
  norm_num

theorem roundQ_hundred_micros :
    roundQ (7378697629483821 / 73786976294838206464 * 1000000) = 100 := by
  have h := roundQ_eval (x := 7378697629483821 / 73786976294838206464 * 1000000) (e := 6)
    (n := 7036874417766400)
    (by norm_num [abs_of_pos]) (by norm_num [abs_of_pos]) (by norm_num)
    (by norm_num) (by norm_num)
  rw [h]
  norm_num

end Double

namespace LPerformance

open Double

theorem ceil_div_thousand (us : ℕ) : ⌈(us : ℚ) / 1000⌉ = (((us + 999) / 1000 : ℕ) : ℤ) := by
  rw [Int.ceil_eq_iff]
  have h1 : (us + 999) / 1000 * 1000 ≤ us + 999 := Nat.div_mul_le_self _ _
  have h2 : us + 999 < ((us + 999) / 1000 + 1) * 1000 := by
    have := Nat.lt_succ_self ((us + 999) / 1000)
    omega
  generalize (us + 999) / 1000 = m at h1 h2
  have h1q : (m : ℚ) * 1000 ≤ (us : ℚ) + 999 := by exact_mod_cast h1
  have h2q : (us : ℚ) + 999 + 1 ≤ ((m : ℚ) + 1) * 1000 := by
    exact_mod_cast h2
  rw [Int.cast_natCast]
  constructor
  · rw [lt_div_iff₀ (by norm_num)]
    linarith
  · rw [div_le_iff₀ (by norm_num)]
    linarith

theorem sleepMillis_eq {us : ℕ} (h2 : ⌈(us : ℚ) / 1000⌉ < 2 ^ 32) :
    sleepMillis us = (us + 999) / 1000 := by
  rw [ceil_div_thousand] at h2
  have h3 : (us + 999) / 1000 < 2 ^ 32 := by exact_mod_cast h2
  have h1 : us + 999 < 2 ^ 64 := by omega
  unfold sleepMillis
  rw [Nat.mod_eq_of_lt h1, Nat.mod_eq_of_lt h3]

theorem performance_sleep_win32_eq (e : ℤ) (secs : Double) (us : ℕ) (os : List NanosleepReply)
    (hpos : Double.le secs (Double.fin 0) = false)
    (hus : (Double.mul secs (Double.fin 1000000)).toUInt64 = some us) :
    performance_sleep .win32 e (some secs) os =
      if 0 < sleepMillis us then SleepResult.returned 0 [OsCall.Sleep (sleepMillis us)]
      else SleepResult.returned 0 [] := by
  unfold performance_sleep luaL_optnumber
  simp only [hpos, hus]
  simp

theorem sleep_tenth_millisecond_us :
    Double.le (Double.ofRat (1 / 10000)) (Double.fin 0) = false
    ∧ (Double.mul (Double.ofRat (1 / 10000)) (Double.fin 1000000)).toUInt64 = some 100 := by
  have h1 : Double.ofRat (1 / 10000) = Double.fin (7378697629483821 / 73786976294838206464) :=
    ofRat_eval roundQ_one_ten_thousandth (by norm_num [abs_of_pos])
  have h2 : Double.ofRat (7378697629483821 / 73786976294838206464 * 1000000)
      = Double.fin ((100 : ℕ) : ℚ) :=
    ofRat_eval (by rw [roundQ_hundred_micros]; norm_num) (by norm_num [abs_of_pos])
  rw [h1]
  constructor
  · simp only [Double.le, decide_eq_false_iff_not, not_le]
    norm_num
  · simp only [Double.mul]
    rw [h2]
    exact toUInt64_natCast (by norm_num)

/-- C7: on the Windows branch, for every microsecond count `us` with `us + 999 < 2^64` and
`ceil(us / 1000) < 2^32`, the millisecond count is `ms = ceil(us / 1000)`; hence
`ms * 1000 ≥ us` and `ms ≥ 1` whenever `us ≥ 1`; and for every positive request `secs`
with `(uint64_t)(secs * 1000000) = us`, `Sleep` is called, once and with `ms`, exactly
when `ms > 0`.  For the `double` nearest to `0.0001` the microsecond count is `100` and
`Sleep(1)` is called. -/
theorem sleep_win32_rounds_up (e : ℤ) (us : ℕ) (os : List NanosleepReply)
    (_h1 : us + 999 < 2 ^ 64) (h2 : ⌈(us : ℚ) / 1000⌉ < 2 ^ 32) :
    ((sleepMillis us : ℕ) : ℤ) = ⌈(us : ℚ) / 1000⌉
    ∧ us ≤ sleepMillis us * 1000
    ∧ (1 ≤ us → 1 ≤ sleepMillis us)
    ∧ (∀ secs : Double, Double.le secs (Double.fin 0) = false →
        (Double.mul secs (Double.fin 1000000)).toUInt64 = some us →
        performance_sleep .win32 e (some secs) os
          = if 0 < sleepMillis us then SleepResult.returned 0 [OsCall.Sleep (sleepMillis us)]
            else SleepResult.returned 0 [])
    ∧ (Double.mul (Double.ofRat (1 / 10000)) (Double.fin 1000000)).toUInt64 = some 100
    ∧ sleepMillis 100 = 1
    ∧ performance_sleep .win32 e (some (Double.ofRat (1 / 10000))) os
        = SleepResult.returned 0 [OsCall.Sleep 1] := by
  have hm := sleepMillis_eq h2
  have hex := sleep_tenth_millisecond_us
  have hm100 : sleepMillis 100 = 1 := by decide
  refine ⟨?_, ?_, ?_, ?_, hex.2, hm100, ?_⟩
  · rw [hm, ceil_div_thousand]
  · rw [hm]
    omega
  · intro h
    rw [hm]
    omega
  · intro secs hpos hus
    exact performance_sleep_win32_eq e secs us os hpos hus
  · rw [performance_sleep_win32_eq e _ 100 os hex.1 hex.2, hm100]
    simp

/-- C7, witness: a microsecond count of 100, the request `0.0001` s. -/
theorem sleep_win32_rounds_up_witness :
    (100 + 999 < 2 ^ 64 ∧ ⌈((100 : ℕ) : ℚ) / 1000⌉ < 2 ^ 32)
    ∧ (((sleepMillis 100 : ℕ) : ℤ) = ⌈((100 : ℕ) : ℚ) / 1000⌉
    ∧ 100 ≤ sleepMillis 100 * 1000
    ∧ (1 ≤ 100 → 1 ≤ sleepMillis 100)
    ∧ (∀ secs : Double, Double.le secs (Double.fin 0) = false →
        (Double.mul secs (Double.fin 1000000)).toUInt64 = some 100 →
        performance_sleep .win32 4 (some secs) []
          = if 0 < sleepMillis 100 then
              SleepResult.returned 0 [OsCall.Sleep (sleepMillis 100)]
            else SleepResult.returned 0 [])
    ∧ (Double.mul (Double.ofRat (1 / 10000)) (Double.fin 1000000)).toUInt64 = some 100
    ∧ sleepMillis 100 = 1
    ∧ performance_sleep .win32 4 (some (Double.ofRat (1 / 10000))) []
        = SleepResult.returned 0 [OsCall.Sleep 1]) :=
  have hc : ⌈((100 : ℕ) : ℚ) / 1000⌉ < 2 ^ 32 := by
    rw [ceil_div_thousand]
    decide
  ⟨⟨by decide, hc⟩, sleep_win32_rounds_up 4 100 [] (by decide) hc⟩

end LPerformance

namespace Double

theorem truncQ_eq {x : ℚ} {n : ℤ} (h0 : 0 ≤ x) (h1 : (n : ℚ) ≤ x) (h2 : x < (n : ℚ) + 1) :
    truncQ x = n := by
  unfold truncQ
  rw [if_pos h0, Int.floor_eq_iff]
  exact ⟨h1, h2⟩

theorem truncQ_bounds {x : ℚ} (h0 : 0 ≤ x) : (truncQ x : ℚ) ≤ x ∧ x < (truncQ x : ℚ) + 1 := by
  unfold truncQ
  rw [if_pos h0]
  exact ⟨Int.floor_le x, Int.lt_floor_add_one x⟩

theorem toUInt64_ofRat_some {x : ℚ} {n : ℕ} (h : (ofRat x).toUInt64 = some n) :
    ofRat x = fin (roundQ x) ∧ truncQ (roundQ x) = (n : ℤ) := by
  unfold ofRat at h ⊢
  split at h
  · simp [toUInt64] at h
  · rename_i hlt
    rw [if_neg hlt]
    simp only [toUInt64] at h
    split at h
    · rename_i hr
      simp only [Option.some.injEq] at h
      refine ⟨rfl, ?_⟩
      omega
    · simp at h

theorem lt_succ_of_roundQ_lt {x : ℚ} {n : ℕ} (hn : n + 1 < 2 ^ 53)
    (h : roundQ x < (n : ℚ) + 1) : x < (n : ℚ) + 1 := by
  by_contra hcon
  have hle : (((n + 1 : ℕ) : ℚ)) ≤ x := by
    push_cast
    linarith
  have hm := roundQ_mono (Nat.cast_nonneg (n + 1)) hle
  rw [roundQ_natCast hn] at hm
  push_cast at hm
  linarith

theorem representable_of_grid {x : ℚ} {m j e : ℤ} (hx : x = (m : ℚ) * (2 : ℚ) ^ j)
    (h1 : (2 : ℚ) ^ e ≤ |x|) (h2 : |x| < (2 : ℚ) ^ (e + 1)) (he : -1022 ≤ e)
    (hj : e - 52 ≤ j) (hb : e + 1 ≤ 1024) : Representable x := by
  constructor
  · apply roundQ_of_grid hx
    rw [expo_eq h1 h2 he]
    exact hj
  · calc |x| < (2 : ℚ) ^ (e + 1) := h2
      _ ≤ (2 : ℚ) ^ (1024 : ℤ) := zpow_le_zpow_right₀ (by norm_num) hb
      _ = (2 : ℚ) ^ 1024 := by norm_num

end Double

namespace LPerformance

open Double

/-- C8, counterexample: the positive request `2^-24` s (about 60 ns) has a microsecond
count of `0`, so no `Sleep` call is made at all; and the request `1 + 2^-30` s has a
microsecond count of `1000000`, so `Sleep(1000)` is called, which is less than asked. -/
theorem sleep_win32_skips_and_undersleeps :
    (Representable (1 / 16777216) ∧ (0 : ℚ) < 1 / 16777216
      ∧ performance_sleep .win32 4 (some (Double.fin (1 / 16777216))) []
          = SleepResult.returned 0 [])
    ∧ (Representable (1 + 1 / 1073741824)
      ∧ performance_sleep .win32 4 (some (Double.fin (1 + 1 / 1073741824))) []
          = SleepResult.returned 0 [OsCall.Sleep 1000]
      ∧ ((1000 : ℕ) : ℚ) / 1000 < 1 + 1 / 1073741824) := by
  refine ⟨⟨?_, by norm_num, ?_⟩, ⟨?_, ?_, by norm_num⟩⟩
  · exact representable_of_grid (m := 1) (j := -24) (e := -24) (by norm_num)
      (by norm_num [abs_of_pos]) (by norm_num [abs_of_pos]) (by norm_num) (by norm_num)
      (by norm_num)
  · have hr : roundQ (1 / 16777216 * 1000000) = 15625 / 262144 := by
      have hx : (1 / 16777216 * 1000000 : ℚ) = ((15625 : ℤ) : ℚ) * (2 : ℚ) ^ (-18 : ℤ) := by
        norm_num
      have he : expo (1 / 16777216 * 1000000 : ℚ) = -5 :=
        expo_eq (by norm_num [abs_of_pos]) (by norm_num [abs_of_pos]) (by norm_num)
      rw [roundQ_of_grid hx (by rw [he]; norm_num)]
      norm_num
    have hus : (Double.mul (Double.fin (1 / 16777216)) (Double.fin 1000000)).toUInt64
        = some 0 := by
      simp only [Double.mul]
      rw [ofRat_eval hr (by norm_num [abs_of_pos])]
      simp only [toUInt64]
      rw [truncQ_eq (n := 0) (by norm_num) (by norm_num) (by norm_num)]
      simp
    have hpos : Double.le (Double.fin (1 / 16777216)) (Double.fin 0) = false := by
      simp only [Double.le, decide_eq_false_iff_not, not_le]
      norm_num
    rw [performance_sleep_win32_eq 4 _ 0 [] hpos hus]
    decide
  · exact representable_of_grid (m := 1073741825) (j := -30) (e := 0) (by norm_num)
      (by norm_num [abs_of_pos]) (by norm_num [abs_of_pos]) (by norm_num) (by norm_num)
      (by norm_num)
  · have hr : roundQ ((1 + 1 / 1073741824) * 1000000) = 16777216015625 / 16777216 := by
      have hx : ((1 + 1 / 1073741824) * 1000000 : ℚ)
          = ((16777216015625 : ℤ) : ℚ) * (2 : ℚ) ^ (-24 : ℤ) := by
        norm_num
      have he : expo ((1 + 1 / 1073741824) * 1000000 : ℚ) = 19 :=
        expo_eq (by norm_num [abs_of_pos]) (by norm_num [abs_of_pos]) (by norm_num)
      rw [roundQ_of_grid hx (by rw [he]; norm_num)]
      norm_num
    have hus : (Double.mul (Double.fin (1 + 1 / 1073741824)) (Double.fin 1000000)).toUInt64
        = some 1000000 := by
      simp only [Double.mul]
      rw [ofRat_eval hr (by norm_num [abs_of_pos])]
      simp only [toUInt64]
      rw [truncQ_eq (n := 1000000) (by norm_num) (by norm_num) (by norm_num)]
      simp
    have hpos : Double.le (Double.fin (1 + 1 / 1073741824)) (Double.fin 0) = false := by
      simp only [Double.le, decide_eq_false_iff_not, not_le]
      norm_num
    rw [performance_sleep_win32_eq 4 _ 1000000 [] hpos hus]
    decide

theorem sleep_one_second_us :
    (Double.mul (Double.fin 1) (Double.fin 1000000)).toUInt64 = some 1000000 := by
  simp only [Double.mul]
  have hr : roundQ (1 * 1000000) = ((1000000 : ℕ) : ℚ) := by
    have := roundQ_natCast (n := 1000000) (by norm_num)
    simpa using this
  rw [ofRat_eval hr (by norm_num [abs_of_pos])]
  exact toUInt64_natCast (by norm_num)

/-- C8 (amended): on the Windows branch, for every finite request `secs > 0` whose
microsecond count `us = (uint64_t)(secs * 1000000)` is at least `1` and has
`ceil(us / 1000) < 2^32`, `performance_sleep` makes exactly one call `Sleep(ms)` with
`ms = ceil(us / 1000) ≥ 1`; the sleep covers the request cut to whole microseconds,
`ms / 1000 ≥ us / 10^6`, and therefore falls short of `secs` by less than one
microsecond: `secs - 10^-6 < ms / 1000`. -/
theorem sleep_win32_covers_whole_micros (e : ℤ) (secs : ℚ) (us : ℕ)
    (os : List NanosleepReply) (hpos : 0 < secs)
    (hus : (Double.mul (Double.fin secs) (Double.fin 1000000)).toUInt64 = some us)
    (h1 : 1 ≤ us) (h2 : ⌈(us : ℚ) / 1000⌉ < 2 ^ 32) :
    performance_sleep .win32 e (some (Double.fin secs)) os
        = SleepResult.returned 0 [OsCall.Sleep (sleepMillis us)]
    ∧ ((sleepMillis us : ℕ) : ℤ) = ⌈(us : ℚ) / 1000⌉
    ∧ 1 ≤ sleepMillis us
    ∧ (us : ℚ) / 1000000 ≤ (sleepMillis us : ℚ) / 1000
    ∧ (us : ℚ) ≤ roundQ (secs * 1000000)
    ∧ secs - 1 / 1000000 < (sleepMillis us : ℚ) / 1000 := by
  have hm := sleepMillis_eq h2
  have hle : Double.le (Double.fin secs) (Double.fin 0) = false := by
    simp only [Double.le, decide_eq_false_iff_not, not_le]
    exact hpos
  have hms : 1 ≤ sleepMillis us := by
    rw [hm]
    omega
  have hcover : us ≤ sleepMillis us * 1000 := by
    rw [hm]
    omega
  have hcoverq : (us : ℚ) ≤ (sleepMillis us : ℚ) * 1000 := by exact_mod_cast hcover
  have hbound : us + 1 < 2 ^ 53 := by
    rw [ceil_div_thousand] at h2
    have h3 : (us + 999) / 1000 < 2 ^ 32 := by exact_mod_cast h2
    omega
  simp only [Double.mul] at hus
  obtain ⟨_, htr⟩ := toUInt64_ofRat_some hus
  have hx0 : (0 : ℚ) ≤ secs * 1000000 := by positivity
  have hb := truncQ_bounds (roundQ_nonneg hx0)
  rw [htr] at hb
  have hb1 : (us : ℚ) ≤ roundQ (secs * 1000000) := by exact_mod_cast hb.1
  have hb2 : roundQ (secs * 1000000) < (us : ℚ) + 1 := by exact_mod_cast hb.2
  have hx := lt_succ_of_roundQ_lt hbound hb2
  refine ⟨?_, ?_, hms, ?_, hb1, ?_⟩
  · have hus' : (Double.mul (Double.fin secs) (Double.fin 1000000)).toUInt64 = some us := by
      simp only [Double.mul]
      exact hus
    rw [performance_sleep_win32_eq e _ us os hle hus', if_pos (by omega)]
  · rw [hm, ceil_div_thousand]
  · rw [div_le_div_iff₀ (by norm_num) (by norm_num)]
    linarith
  · rw [lt_div_iff₀ (by norm_num)]
    linarith

/-- C8, witness: a request of one second. -/
theorem sleep_win32_covers_whole_micros_witness :
    ((0 : ℚ) < 1
      ∧ (Double.mul (Double.fin 1) (Double.fin 1000000)).toUInt64 = some 1000000
      ∧ 1 ≤ 1000000 ∧ ⌈((1000000 : ℕ) : ℚ) / 1000⌉ < 2 ^ 32)
    ∧ performance_sleep .win32 4 (some (Double.fin 1)) []
        = SleepResult.returned 0 [OsCall.Sleep (sleepMillis 1000000)]
    ∧ ((sleepMillis 1000000 : ℕ) : ℤ) = ⌈((1000000 : ℕ) : ℚ) / 1000⌉
    ∧ 1 ≤ sleepMillis 1000000
    ∧ ((1000000 : ℕ) : ℚ) / 1000000 ≤ (sleepMillis 1000000 : ℚ) / 1000
    ∧ ((1000000 : ℕ) : ℚ) ≤ roundQ (1 * 1000000)
    ∧ (1 : ℚ) - 1 / 1000000 < (sleepMillis 1000000 : ℚ) / 1000 :=
  have hc : ⌈((1000000 : ℕ) : ℚ) / 1000⌉ < 2 ^ 32 := by
    rw [ceil_div_thousand]
    decide
  ⟨⟨by norm_num, sleep_one_second_us, by decide, hc⟩,
    sleep_win32_covers_whole_micros 4 1 1000000 [] (by norm_num) sleep_one_second_us
      (by decide) hc⟩

/-! ## `performance_sleep` with `nanosleep`: the retry loop and the first request -/

theorem nanosleepLoop_interrupted (e : ℤ) (ints : List (ℤ × Timespec))
    (tail : List NanosleepReply) (ts0 : Timespec) (calls0 : List OsCall)
    (hints : ∀ x ∈ ints, x.1 ≠ 0) :
    nanosleepLoop e (ints.map (interruptedReply e) ++ tail) ts0 calls0
      = nanosleepLoop e tail ((ts0 :: ints.map Prod.snd).getLast (by simp))
          (calls0 ++ ((ts0 :: ints.map Prod.snd).take ints.length).map OsCall.nanosleep) := by
  induction ints generalizing ts0 calls0 with
  | nil => simp
  | cons x xs ih =>
    have hx : x.1 ≠ 0 := hints x (by simp)
    have hxs : ∀ y ∈ xs, y.1 ≠ 0 := fun y hy => hints y (by simp [hy])
    simp only [List.map_cons, List.cons_append]
    rw [nanosleepLoop]
    simp only [interruptedReply, errnoAfter, bne_self_eq_false, Bool.or_false, beq_iff_eq, hx,
      if_false]
    rw [ih _ _ hxs]
    simp [List.getLast_cons]

theorem nanosleepLoop_stop (e : ℤ) (last : NanosleepReply) (rest : List NanosleepReply)
    (ts : Timespec) (calls : List OsCall) (hlast : last.res = 0 ∨ errnoAfter last ≠ e) :
    nanosleepLoop e (last :: rest) ts calls
      = SleepResult.returned 0 (calls ++ [OsCall.nanosleep ts]) := by
  rw [nanosleepLoop]
  have : (last.res == 0 || errnoAfter last != e) = true := by
    rcases hlast with h | h
    · simp [h]
    · simp [h]
  simp only [this, if_true]

theorem performance_sleep_posix_eq (p : Platform) (e : ℤ) (secs : Double) (ts : Timespec)
    (os : List NanosleepReply) (hp : p ≠ .win32)
    (hgt : Double.gt secs (Double.fin 0) = true) (hts : sleepTimespec secs = some ts) :
    performance_sleep p e (some secs) os = nanosleepLoop e os ts [] := by
  unfold performance_sleep luaL_optnumber
  simp only [le_zero_of_gt_zero hgt, hgt, hts]
  cases p with
  | win32 => exact absurd rfl hp
  | apple => simp
  | posix => simp

end LPerformance

namespace Double

theorem fract_le_of_representable {q : ℚ} (hrep : roundQ q = q) (h0 : 0 ≤ q) :
    Int.fract q ≤ 1 - 1 / 2 ^ 53 := by
  by_cases hhalf : q < 1 / 2
  · have hfl : ⌊q⌋ = 0 := by
      rw [Int.floor_eq_iff]
      constructor
      · simpa using h0
      · norm_num
        linarith
    have : Int.fract q = q := by
      unfold Int.fract
      rw [hfl]
      simp
    rw [this]
    have : (1 : ℚ) / 2 ≤ 1 - 1 / 2 ^ 53 := by norm_num
    linarith
  · push_neg at hhalf
    have hpos : 0 < q := by linarith
    have hlog : (-1 : ℤ) ≤ Int.log 2 q := by
      apply log2_ge_of_le
      rw [zpow_neg, zpow_one]
      linarith
    have he : -1 ≤ expo q := by
      rw [expo_of_nonneg h0]
      exact le_max_of_le_left hlog
    have hq : q = (rnInt (q / ulp q) : ℚ) * ulp q := hrep.symm
    have hu : ulp q = (2 : ℚ) ^ (expo q - 52) := rfl
    by_cases hbig : 52 ≤ expo q
    · obtain ⟨k, hk⟩ := Int.eq_ofNat_of_zero_le (sub_nonneg.mpr hbig)
      have hu2 : ulp q = (((2 : ℤ) ^ k : ℤ) : ℚ) := by
        rw [hu, hk, zpow_natCast]
        push_cast
        rfl
      have hint : q = ((rnInt (q / ulp q) * 2 ^ k : ℤ) : ℚ) := by
        rw [Int.cast_mul, ← hu2]
        exact hq
      rw [hint, Int.fract_intCast]
      norm_num
    · push_neg at hbig
      obtain ⟨k, hk⟩ := Int.eq_ofNat_of_zero_le (show (0 : ℤ) ≤ 52 - expo q by omega)
      have hk53 : k ≤ 53 := by omega
      have hs := two_zpow_split (expo q - 52) k
      have hz : expo q - 52 + (k : ℤ) = 0 := by omega
      rw [hz, zpow_zero, ← hu] at hs
      have hpk : (0 : ℚ) < (((2 : ℤ) ^ k : ℤ) : ℚ) := by
        push_cast
        positivity
      have hqk : q * (((2 : ℤ) ^ k : ℤ) : ℚ) = (rnInt (q / ulp q) : ℚ) := by
        conv_lhs => rw [hq]
        rw [mul_assoc, mul_comm (ulp q), ← hs, mul_one]
      have hfr : Int.fract q * (((2 : ℤ) ^ k : ℤ) : ℚ)
          = ((rnInt (q / ulp q) - ⌊q⌋ * 2 ^ k : ℤ) : ℚ) := by
        unfold Int.fract
        rw [sub_mul, hqk]
        push_cast
        ring
      have hlt : Int.fract q * (((2 : ℤ) ^ k : ℤ) : ℚ) < (((2 : ℤ) ^ k : ℤ) : ℚ) := by
        have := Int.fract_lt_one q
        nlinarith
      rw [hfr] at hlt
      have hlt' : rnInt (q / ulp q) - ⌊q⌋ * 2 ^ k < (2 : ℤ) ^ k := by exact_mod_cast hlt
      have hle' : rnInt (q / ulp q) - ⌊q⌋ * 2 ^ k ≤ (2 : ℤ) ^ k - 1 := by omega
      have hle : Int.fract q * (((2 : ℤ) ^ k : ℤ) : ℚ) ≤ (((2 : ℤ) ^ k : ℤ) : ℚ) - 1 := by
        rw [hfr]
        exact_mod_cast hle'
      have hpow : (((2 : ℤ) ^ k : ℤ) : ℚ) ≤ 2 ^ 53 := by
        push_cast
        exact pow_le_pow_right₀ (by norm_num) hk53
      have h53 : (0 : ℚ) < 2 ^ 53 := by positivity
      have hfr0 := Int.fract_nonneg q
      have key : Int.fract q ≤ 1 - 1 / (((2 : ℤ) ^ k : ℤ) : ℚ) := by
        have hd : (1 : ℚ) / (((2 : ℤ) ^ k : ℤ) : ℚ) ≤ 1 - Int.fract q := by
          rw [div_le_iff₀ hpk]
          linarith
        linarith
      have hinv : (1 : ℚ) / 2 ^ 53 ≤ 1 / (((2 : ℤ) ^ k : ℤ) : ℚ) :=
        one_div_le_one_div_of_le hpk hpow
      linarith

theorem roundQ_below_billion :
    roundQ ((1 - 1 / 2 ^ 53) * 1000000000) = 1000000000 - 1 / 8388608 := by
  have h := roundQ_eval (x := (1 - 1 / 2 ^ 53) * 1000000000) (e := 29)
    (n := 8388607999999999)
    (by norm_num [abs_of_pos]) (by norm_num [abs_of_pos]) (by norm_num)
    (by norm_num) (by norm_num)
  rw [h]
  norm_num

theorem roundQ_fract_nanos_lt {q : ℚ} (hrep : roundQ q = q) (h0 : 0 ≤ q) :
    roundQ (Int.fract q * 1000000000) < 1000000000 := by
  have h1 := fract_le_of_representable hrep h0
  have h2 : Int.fract q * 1000000000 ≤ (1 - 1 / 2 ^ 53) * 1000000000 :=
    mul_le_mul_of_nonneg_right h1 (by norm_num)
  have h3 := roundQ_mono (mul_nonneg (Int.fract_nonneg q) (by norm_num)) h2
  rw [roundQ_below_billion] at h3
  have : (1000000000 : ℚ) - 1 / 8388608 < 1000000000 := by norm_num
  linarith

theorem roundQ_fract_nanos_le (q : ℚ) :
    roundQ (Int.fract q * 1000000000) ≤ 1000000000 := by
  have h2 : Int.fract q * 1000000000 ≤ ((1000000000 : ℕ) : ℚ) := by
    have := (Int.fract_lt_one q).le
    push_cast
    linarith
  have h3 := roundQ_mono (mul_nonneg (Int.fract_nonneg q) (by norm_num)) h2
  rw [roundQ_natCast (by norm_num)] at h3
  exact_mod_cast h3

theorem truncQ_of_nonneg {x : ℚ} (h : 0 ≤ x) : truncQ x = ⌊x⌋ := by
  unfold truncQ
  rw [if_pos h]

end Double

namespace LPerformance

open Double

theorem sleepTimespec_fin {secs : ℚ} (hpos : 0 < secs) (hfl : ⌊secs⌋ < 2 ^ 63) :
    sleepTimespec (Double.fin secs)
      = some { tv_sec := ⌊secs⌋, tv_nsec := ⌊roundQ (Int.fract secs * 1000000000)⌋ } := by
  have hx0 : (0 : ℚ) ≤ Int.fract secs * 1000000000 :=
    mul_nonneg (Int.fract_nonneg secs) (by norm_num)
  have hr0 := roundQ_nonneg hx0
  have hr1 := roundQ_fract_nanos_le secs
  have hfl0 : 0 ≤ ⌊secs⌋ := Int.floor_nonneg.mpr hpos.le
  have hm : secs - ((truncQ secs : ℤ) : ℚ) = Int.fract secs := by
    rw [truncQ_of_nonneg hpos.le]
    rfl
  have hmul : Double.mul (Double.fin (Int.fract secs)) (Double.fin 1000000000)
      = Double.fin (roundQ (Int.fract secs * 1000000000)) := by
    simp only [Double.mul]
    apply ofRat_eq_fin hx0
    have h1 : Int.fract secs * 1000000000 ≤ 1000000000 := by
      have := (Int.fract_lt_one secs).le
      linarith
    have h2 : (1000000000 : ℚ) ≤ (2 : ℚ) ^ 1023 := by norm_num
    linarith
  have ht1 : truncQ ((⌊secs⌋ : ℤ) : ℚ) = ⌊secs⌋ := by
    rw [truncQ_of_nonneg (by exact_mod_cast hfl0), Int.floor_intCast]
  have ht2 : truncQ (roundQ (Int.fract secs * 1000000000))
      = ⌊roundQ (Int.fract secs * 1000000000)⌋ := truncQ_of_nonneg hr0
  have hn0 : 0 ≤ ⌊roundQ (Int.fract secs * 1000000000)⌋ := Int.floor_nonneg.mpr hr0
  have hn1 : ⌊roundQ (Int.fract secs * 1000000000)⌋ ≤ 1000000000 := by
    have := Int.floor_le_floor hr1
    rwa [show (1000000000 : ℚ) = ((1000000000 : ℤ) : ℚ) by norm_num, Int.floor_intCast] at this
  unfold sleepTimespec
  simp only [Double.modf, Double.floor, hm, hmul, Double.toInt64, ht1, ht2]
  rw [if_pos ⟨by omega, hfl⟩, if_pos ⟨by omega, by omega⟩]

theorem take_append_getLast (ts0 : Timespec) (l : List Timespec) :
    (ts0 :: l).take l.length ++ [(ts0 :: l).getLast (by simp)] = ts0 :: l := by
  induction l generalizing ts0 with
  | nil => simp
  | cons x xs ih =>
    simp only [List.length_cons, List.take_succ_cons, List.cons_append, List.cons.injEq,
      true_and]
    rw [List.getLast_cons (by simp)]
    exact ih x

theorem sleepTimespec_two : sleepTimespec (Double.fin 2) = some ⟨2, 0⟩ := by
  rw [sleepTimespec_fin (by norm_num) (by
    rw [show (2 : ℚ) = ((2 : ℤ) : ℚ) by norm_num, Int.floor_intCast]
    norm_num)]
  have h1 : ⌊(2 : ℚ)⌋ = 2 := by
    rw [show (2 : ℚ) = ((2 : ℤ) : ℚ) by norm_num, Int.floor_intCast]
  have h2 : Int.fract (2 : ℚ) = 0 := by
    rw [show (2 : ℚ) = ((2 : ℤ) : ℚ) by norm_num, Int.fract_intCast]
  rw [h1, h2]
  simp [roundQ_zero]

/-- C9: on the branch that uses `nanosleep`, for a positive request whose `timespec` is
`ts0`: if the first `k` calls are interrupted (nonzero return value, `errno = EINTR`, the
remaining time written back) and call `k + 1` either returns `0` or fails with another
`errno`, then `performance_sleep` returns after exactly `k + 1` `nanosleep` calls whose
requests are `ts0` followed by the `k` remaining times written back, in order; and if
every scripted call is interrupted the function has not returned when the script ends. -/
theorem nanosleep_retried_until_done (p : Platform) (e : ℤ) (secs : Double) (ts0 : Timespec)
    (ints : List (ℤ × Timespec)) (last : NanosleepReply) (rest : List NanosleepReply)
    (hp : p ≠ .win32) (hgt : Double.gt secs (Double.fin 0) = true)
    (hts : sleepTimespec secs = some ts0)
    (hints : ∀ x ∈ ints, x.1 ≠ 0)
    (hlast : last.res = 0 ∨ errnoAfter last ≠ e) :
    performance_sleep p e (some secs) (ints.map (interruptedReply e) ++ last :: rest)
        = SleepResult.returned 0 ((ts0 :: ints.map Prod.snd).map OsCall.nanosleep)
    ∧ ((ts0 :: ints.map Prod.snd).map OsCall.nanosleep).length = ints.length + 1
    ∧ performance_sleep p e (some secs) (ints.map (interruptedReply e))
        = SleepResult.blocked
            (((ts0 :: ints.map Prod.snd).take ints.length).map OsCall.nanosleep) := by
  refine ⟨?_, by simp, ?_⟩
  · rw [performance_sleep_posix_eq p e secs ts0 _ hp hgt hts,
      nanosleepLoop_interrupted e ints (last :: rest) ts0 [] hints,
      nanosleepLoop_stop e last rest _ _ hlast]
    have h := take_append_getLast ts0 (ints.map Prod.snd)
    rw [List.length_map] at h
    rw [List.nil_append, ← List.map_singleton, ← List.map_append, h]
  · have h := nanosleepLoop_interrupted e ints [] ts0 [] hints
    rw [List.append_nil] at h
    rw [performance_sleep_posix_eq p e secs ts0 _ hp hgt hts, h, nanosleepLoop]
    simp

/-- C9, witness: a two-second sleep interrupted once with 1 s 5 ns left. -/
theorem nanosleep_retried_until_done_witness :
    (Platform.posix ≠ Platform.win32
      ∧ Double.gt (Double.fin 2) (Double.fin 0) = true
      ∧ sleepTimespec (Double.fin 2) = some ⟨2, 0⟩
      ∧ (∀ x ∈ [((-1 : ℤ), (⟨1, 5⟩ : Timespec))], x.1 ≠ 0)
      ∧ ((⟨0, none, none⟩ : NanosleepReply).res = 0
          ∨ errnoAfter (⟨0, none, none⟩ : NanosleepReply) ≠ 4))
    ∧ (performance_sleep .posix 4 (some (Double.fin 2))
        ([((-1 : ℤ), (⟨1, 5⟩ : Timespec))].map (interruptedReply 4) ++ ⟨0, none, none⟩ :: [])
        = SleepResult.returned 0
            (((⟨2, 0⟩ : Timespec) :: [((-1 : ℤ), (⟨1, 5⟩ : Timespec))].map Prod.snd).map
              OsCall.nanosleep)
    ∧ (((⟨2, 0⟩ : Timespec) :: [((-1 : ℤ), (⟨1, 5⟩ : Timespec))].map Prod.snd).map
        OsCall.nanosleep).length = [((-1 : ℤ), (⟨1, 5⟩ : Timespec))].length + 1
    ∧ performance_sleep .posix 4 (some (Double.fin 2))
        ([((-1 : ℤ), (⟨1, 5⟩ : Timespec))].map (interruptedReply 4))
        = SleepResult.blocked
            ((((⟨2, 0⟩ : Timespec) :: [((-1 : ℤ), (⟨1, 5⟩ : Timespec))].map Prod.snd).take
              [((-1 : ℤ), (⟨1, 5⟩ : Timespec))].length).map OsCall.nanosleep)) :=
  have hg : Double.gt (Double.fin 2) (Double.fin 0) = true := by
    simp [Double.gt]
  have hi : ∀ x ∈ [((-1 : ℤ), (⟨1, 5⟩ : Timespec))], x.1 ≠ 0 := by
    intro x hx
    simp only [List.mem_singleton] at hx
    rw [hx]
    decide
  ⟨⟨by decide, hg, sleepTimespec_two, hi, Or.inl rfl⟩,
    nanosleep_retried_until_done .posix 4 (Double.fin 2) ⟨2, 0⟩
      [((-1 : ℤ), (⟨1, 5⟩ : Timespec))] ⟨0, none, none⟩ [] (by decide) hg sleepTimespec_two hi
      (Or.inl rfl)⟩

/-- C10, counterexample: for the request `2^-31` s (about 0.47 ns) the `timespec` passed
to `nanosleep` is `{0, 0}`: it asks for less than the requested duration.  And for the
`double` nearest to `3e-9`, which is `7253554917687775 / 2^81`, the product with `10^9`
rounds up to `3`, so `tv_nsec = 3` although `trunc(frac(secs) * 10^9) = 2`. -/
theorem sleepTimespec_can_fall_short :
    (Representable (1 / 2147483648) ∧ (0 : ℚ) < 1 / 2147483648
      ∧ sleepTimespec (Double.fin (1 / 2147483648)) = some ⟨0, 0⟩
      ∧ (((0 : ℤ) * 1000000000 + 0 : ℤ) : ℚ) < 1 / 2147483648 * 1000000000)
    ∧ (Representable (7253554917687775 / 2 ^ 81)
      ∧ sleepTimespec (Double.fin (7253554917687775 / 2 ^ 81)) = some ⟨0, 3⟩
      ∧ ⌊Int.fract (7253554917687775 / 2 ^ 81 : ℚ) * 1000000000⌋ = 2) := by
  have hfl3 : ⌊(7253554917687775 / 2 ^ 81 : ℚ)⌋ = 0 := by
    rw [Int.floor_eq_iff]
    constructor <;> norm_num
  have hfr3 : Int.fract (7253554917687775 / 2 ^ 81 : ℚ) = 7253554917687775 / 2 ^ 81 := by
    unfold Int.fract
    rw [hfl3]
    simp
  refine ⟨⟨?_, by norm_num, ?_, by norm_num⟩, ?_, ?_, ?_⟩
  · exact representable_of_grid (m := 1) (j := -31) (e := -31) (by norm_num)
      (by norm_num [abs_of_pos]) (by norm_num [abs_of_pos]) (by norm_num) (by norm_num)
      (by norm_num)
  · have hfl : ⌊(1 / 2147483648 : ℚ)⌋ = 0 := by
      rw [Int.floor_eq_iff]
      constructor <;> norm_num
    have hfr : Int.fract (1 / 2147483648 : ℚ) = 1 / 2147483648 := by
      unfold Int.fract
      rw [hfl]
      simp
    have hr : roundQ (1 / 2147483648 * 1000000000) = 1953125 / 4194304 := by
      have hx : (1 / 2147483648 * 1000000000 : ℚ)
          = ((1953125 : ℤ) : ℚ) * (2 : ℚ) ^ (-22 : ℤ) := by
        norm_num
      have he : expo (1 / 2147483648 * 1000000000 : ℚ) = -2 :=
        expo_eq (by norm_num [abs_of_pos]) (by norm_num [abs_of_pos]) (by norm_num)
      rw [roundQ_of_grid hx (by rw [he]; norm_num)]
      norm_num
    have hfl2 : ⌊(1953125 / 4194304 : ℚ)⌋ = 0 := by
      rw [Int.floor_eq_iff]
      constructor <;> norm_num
    rw [sleepTimespec_fin (by norm_num) (by rw [hfl]; norm_num), hfl, hfr, hr, hfl2]
  · exact representable_of_grid (m := 7253554917687775) (j := -81) (e := -29) (by norm_num)
      (by norm_num [abs_of_pos]) (by norm_num [abs_of_pos]) (by norm_num) (by norm_num)
      (by norm_num)
  · have hr : roundQ (7253554917687775 / 2 ^ 81 * 1000000000) = 3 := by
      have h := roundQ_eval (x := 7253554917687775 / 2 ^ 81 * 1000000000) (e := 1)
        (n := 6755399441055744)
        (by norm_num [abs_of_pos]) (by norm_num [abs_of_pos]) (by norm_num)
        (by norm_num) (by norm_num)
      rw [h]
      norm_num
    have hfl2 : ⌊(3 : ℚ)⌋ = 3 := by
      rw [show (3 : ℚ) = ((3 : ℤ) : ℚ) by norm_num, Int.floor_intCast]
    rw [sleepTimespec_fin (by norm_num) (by rw [hfl3]; norm_num), hfl3, hfr3, hr, hfl2]
  · rw [hfr3, Int.floor_eq_iff]
    constructor <;> norm_num

/-- C10 (amended): on the branch that uses `nanosleep`, for every finite binary64 request
`secs > 0` with `floor(secs) < 2^63`, the `timespec` first passed to `nanosleep` is
`tv_sec = floor(secs)`, `tv_nsec = trunc(rnd(frac(secs) * 10^9))` where `rnd` is the
binary64 rounding of the product; it is a valid `timespec`
(`0 ≤ tv_nsec ≤ 999999999`), and it asks for more than the requested duration less one
nanosecond: `secs * 10^9 - 1 < tv_sec * 10^9 + tv_nsec`. -/
theorem sleepTimespec_within_one_nano (secs : ℚ) (hrep : Representable secs)
    (hpos : 0 < secs) (hfl : ⌊secs⌋ < 2 ^ 63) :
    ∃ ts : Timespec, sleepTimespec (Double.fin secs) = some ts
      ∧ (∀ (p : Platform) (e : ℤ) (os : List NanosleepReply), p ≠ .win32 →
          performance_sleep p e (some (Double.fin secs)) os = nanosleepLoop e os ts [])
      ∧ ts.tv_sec = ⌊secs⌋
      ∧ ts.tv_nsec = ⌊roundQ (Int.fract secs * 1000000000)⌋
      ∧ 0 ≤ ts.tv_nsec ∧ ts.tv_nsec ≤ 999999999
      ∧ secs * 1000000000 - 1 < ((ts.tv_sec * 1000000000 + ts.tv_nsec : ℤ) : ℚ) := by
  have hts := sleepTimespec_fin hpos hfl
  have hx0 : (0 : ℚ) ≤ Int.fract secs * 1000000000 :=
    mul_nonneg (Int.fract_nonneg secs) (by norm_num)
  have hr0 := roundQ_nonneg hx0
  have hlt := roundQ_fract_nanos_lt hrep.1 hpos.le
  have hn0 : 0 ≤ ⌊roundQ (Int.fract secs * 1000000000)⌋ := Int.floor_nonneg.mpr hr0
  have hn1 : ⌊roundQ (Int.fract secs * 1000000000)⌋ < 1000000000 := by
    rw [Int.floor_lt]
    exact_mod_cast hlt
  have hgt : Double.gt (Double.fin secs) (Double.fin 0) = true := by
    simp only [Double.gt, decide_eq_true_eq]
    exact hpos
  have hn2 : ⌊roundQ (Int.fract secs * 1000000000)⌋ ≤ 999999999 := by omega
  refine ⟨_, hts, ?_, rfl, rfl, hn0, hn2, ?_⟩
  · intro p e os hp
    exact performance_sleep_posix_eq p e _ _ os hp hgt hts
  · obtain ⟨n, hn⟩ := Int.eq_ofNat_of_zero_le hn0
    have hup : roundQ (Int.fract secs * 1000000000) < (n : ℚ) + 1 := by
      have := Int.lt_floor_add_one (roundQ (Int.fract secs * 1000000000))
      rw [hn] at this
      exact_mod_cast this
    have hn53 : n + 1 < 2 ^ 53 := by omega
    have hx := lt_succ_of_roundQ_lt hn53 hup
    have hsplit : secs = (⌊secs⌋ : ℚ) + Int.fract secs := (Int.floor_add_fract secs).symm
    simp only
    rw [hn]
    push_cast
    nlinarith

/-- C10, witness: a request of two seconds. -/
theorem sleepTimespec_within_one_nano_witness :
    (Representable 2 ∧ (0 : ℚ) < 2 ∧ ⌊(2 : ℚ)⌋ < 2 ^ 63)
    ∧ ∃ ts : Timespec, sleepTimespec (Double.fin 2) = some ts
      ∧ (∀ (p : Platform) (e : ℤ) (os : List NanosleepReply), p ≠ .win32 →
          performance_sleep p e (some (Double.fin 2)) os = nanosleepLoop e os ts [])
      ∧ ts.tv_sec = ⌊(2 : ℚ)⌋
      ∧ ts.tv_nsec = ⌊roundQ (Int.fract (2 : ℚ) * 1000000000)⌋
      ∧ 0 ≤ ts.tv_nsec ∧ ts.tv_nsec ≤ 999999999
      ∧ (2 : ℚ) * 1000000000 - 1 < ((ts.tv_sec * 1000000000 + ts.tv_nsec : ℤ) : ℚ) :=
  have hr : Representable 2 :=
    representable_of_grid (m := 1) (j := 1) (e := 1) (by norm_num)
      (by norm_num [abs_of_pos]) (by norm_num [abs_of_pos]) (by norm_num) (by norm_num)
      (by norm_num)
  have hf : ⌊(2 : ℚ)⌋ < 2 ^ 63 := by
    rw [show (2 : ℚ) = ((2 : ℤ) : ℚ) by norm_num, Int.floor_intCast]
    norm_num
  ⟨⟨hr, by norm_num, hf⟩, sleepTimespec_within_one_nano 2 hr (by norm_num) hf⟩

end LPerformance
